import Mathlib

/-!
Verification development for the muxic `dedup` subsystem.

The definitions below are a shallow embedding of the Go sources:
  * package `dedup` (`FileEntry`, `Cache`, `LoadCache`, `UpdateEntry`)
  * `cmd/dedup.go` (`runDedup`: scan, grouping, resolution, deletion,
    cache pruning).
Go maps are embedded as association lists keyed by `String`; filesystem
effects (`os.Open`/`io.Copy` inside `GenerateSignature`, `os.Remove`,
`os.Stat`) are embedded as oracle functions passed in as parameters.
-/

namespace Muxic

/-- `FileEntry` from the `dedup` package: cached metadata for one file.
`modTime` is Unix seconds (`info.ModTime().Unix()`), `size` is bytes. -/
structure FileEntry where
  signature : String
  modTime : Int
  size : Int
deriving Repr, DecidableEq

/-- `Cache` from the `dedup` package: a Go `map[string]FileEntry`,
embedded as an association list. -/
abbrev Cache := List (String × FileEntry)

/-- Association-list lookup (Go map read `m[k]`). -/
def alGet {β : Type} : List (String × β) → String → Option β
  | [], _ => none
  | (k, v) :: rest, q => if k = q then some v else alGet rest q

/-- Association-list key removal (Go `delete(m, k)`). -/
def alDel {β : Type} (m : List (String × β)) (k : String) : List (String × β) :=
  m.filter (fun kv => kv.1 ≠ k)

/-- Association-list overwrite (Go map write `m[k] = v`). -/
def alSet {β : Type} (m : List (String × β)) (k : String) (v : β) :
    List (String × β) :=
  (k, v) :: alDel m k

/-- Live filesystem metadata of a file, as used by the scanner
(`os.FileInfo`: `ModTime().Unix()` and `Size()`). -/
structure FileInfo where
  modTime : Int
  size : Int
deriving Repr, DecidableEq

/-- A file visited by `filepath.Walk`, in walk order. -/
structure FsFile where
  path : String
  info : FileInfo
deriving Repr, DecidableEq

/-- `UpdateEntry` from the `dedup` package (the `mu == nil` instantiation
used by `runDedup`).  `sign` embeds `GenerateSignature`: `none` models an
I/O error opening/reading the file.  Returns `(signature, fresh, cache)`;
`none` models the error return, in which case the cache is untouched. -/
def UpdateEntry (sign : String → Option String) (path : String)
    (info : FileInfo) (cache : Cache) : Option (String × Bool × Cache) :=
  match alGet cache path with
  | some entry =>
    if entry.modTime = info.modTime ∧ entry.size = info.size then
      some (entry.signature, false, cache)
    else
      match sign path with
      | none => none
      | some sig =>
        some (sig, true, alSet cache path ⟨sig, info.modTime, info.size⟩)
  | none =>
    match sign path with
    | none => none
    | some sig =>
      some (sig, true, alSet cache path ⟨sig, info.modTime, info.size⟩)

/-- `os.IsPathSeparator` on Unix. -/
def isPathSep (c : Char) : Bool := c = '/'

/-- Helper for `filepathExt`: scans the path characters from the end
(they are given reversed), accumulating until the final dot. -/
def extRevAux : List Char → List Char → String
  | [], _ => ""
  | c :: rest, acc =>
    if isPathSep c then ""
    else if c = '.' then String.mk (c :: acc)
    else extRevAux rest (c :: acc)

/-- `filepath.Ext`: the suffix beginning at the final dot in the final
slash-separated element; empty if there is no dot. -/
def filepathExt (p : String) : String := extRevAux p.data.reverse []

/-- `strings.ToLower` (ASCII suffices for the extension comparison). -/
def toLowerStr (s : String) : String := String.mk (s.data.map Char.toLower)

/-- The extension filter of `runDedup`'s walk callback: proceed only when
the lowercased extension is `.mp3`, `.flac`, `.m4a` or `.wav`. -/
def isMediaPath (p : String) : Bool :=
  let ext := toLowerStr (filepathExt p)
  ext = ".mp3" || ext = ".flac" || ext = ".m4a" || ext = ".wav"

/-- The signature → paths index `filesBySig` (Go `map[string][]string`). -/
abbrev SigMap := List (String × List String)

/-- The path list stored under a signature (Go `filesBySig[sig]`,
a missing key reading as the empty slice). -/
def sigMapGet (m : SigMap) (s : String) : List String :=
  (alGet m s).getD []

/-- `filesBySig[sig] = append(filesBySig[sig], path)`. -/
def sigMapAppend : SigMap → String → String → SigMap
  | [], s, p => [(s, [p])]
  | (k, ps) :: rest, s, p =>
    if k = s then (k, ps ++ [p]) :: rest else (k, ps) :: sigMapAppend rest s p

/-- State accumulated by the walk callback of `runDedup`: the signature
cache, the `filesBySig` index, and the paths whose processing errored
(printed as `Error processing <path>`). -/
structure ScanState where
  cache : Cache
  filesBySig : SigMap
  errs : List String
deriving Repr, DecidableEq

/-- One invocation of the walk callback on a regular file: filter by
extension, call `UpdateEntry`, log-and-skip on error, else append the
path under its signature. -/
def scanStep (sign : String → Option String) (st : ScanState) (f : FsFile) :
    ScanState :=
  if isMediaPath f.path then
    match UpdateEntry sign f.path f.info st.cache with
    | none => { st with errs := st.errs ++ [f.path] }
    | some (sig, _, cache') =>
      { st with cache := cache', filesBySig := sigMapAppend st.filesBySig sig f.path }
  else st

/-- The whole walk of `runDedup`: fold the callback over the regular
files of the target directory in walk order. -/
def scanFiles (sign : String → Option String) (cache0 : Cache)
    (files : List FsFile) : ScanState :=
  files.foldl (scanStep sign) ⟨cache0, [], []⟩

/-- The comparator of `sort.Slice(files, ...)` in `runDedup`: shorter path
strings first, lexicographic tie-break. -/
def pathLe (a b : String) : Prop :=
  if a.length = b.length then a ≤ b else a.length < b.length

instance : DecidableRel pathLe := fun a b => by
  unfold pathLe
  infer_instance

instance : IsTotal String pathLe := by
  constructor
  intro a b
  unfold pathLe
  rcases eq_or_ne a.length b.length with h | h
  · simp [h, le_total]
  · simp only [if_neg h, if_neg (Ne.symm h)]
    omega

instance : IsTrans String pathLe := by
  constructor
  intro a b c hab hbc
  unfold pathLe at *
  rcases eq_or_ne a.length b.length with h1 | h1 <;>
    rcases eq_or_ne b.length c.length with h2 | h2
  · rw [if_pos h1] at hab
    rw [if_pos h2] at hbc
    rw [if_pos (h1.trans h2)]
    exact le_trans hab hbc
  · rw [if_pos h1] at hab
    rw [if_neg h2] at hbc
    rw [if_neg (by omega)]
    omega
  · rw [if_neg h1] at hab
    rw [if_pos h2] at hbc
    rw [if_neg (by omega)]
    omega
  · rw [if_neg h1] at hab
    rw [if_neg h2] at hbc
    rw [if_neg (by omega)]
    omega

instance : IsAntisymm String pathLe := by
  constructor
  intro a b hab hba
  unfold pathLe at *
  by_cases h : a.length = b.length
  · rw [if_pos h] at hab
    rw [if_pos h.symm] at hba
    exact le_antisymm hab hba
  · rw [if_neg h] at hab
    rw [if_neg (Ne.symm h)] at hba
    omega

/-- `sort.Slice` on a duplicate set's path list. -/
def sortFiles (l : List String) : List String := l.insertionSort pathLe

/-- `sort.Strings` on the signature list. -/
def sortSigs (l : List String) : List String :=
  l.insertionSort (fun a b => a ≤ b)

/-- The deterministic duplicate-set order of `runDedup`: collect every
signature whose path list has more than one element, then `sort.Strings`. -/
def dupSigs (m : SigMap) : List String :=
  sortSigs ((m.filter (fun kv => 1 < kv.2.length)).map Prod.fst)

/-- The inner deletion loop `for i, f := range files` of `runDedup`:
skip `keepIndex`; try `os.Remove` (embedded by the `removeOk` oracle);
on success delete the path from the cache, then add `cache[files[i]].Size`
to `bytesSaved` if that lookup still succeeds (it is performed after the
`delete`), and record the removed path.  `i` is the running index. -/
def deleteOthersAux (removeOk : String → Bool) (keepIndex : Nat) :
    Nat → List String → Cache → Int → List String → Cache × Int × List String
  | _, [], cache, bytes, removed => (cache, bytes, removed)
  | i, f :: rest, cache, bytes, removed =>
    if i = keepIndex then
      deleteOthersAux removeOk keepIndex (i + 1) rest cache bytes removed
    else if removeOk f then
      let cache' := alDel cache f
      let bytes' :=
        match alGet cache' f with
        | some entry => bytes + entry.size
        | none => bytes
      deleteOthersAux removeOk keepIndex (i + 1) rest cache' bytes' (removed ++ [f])
    else
      deleteOthersAux removeOk keepIndex (i + 1) rest cache bytes removed

/-- The resolution of one duplicate set, abstracted over the survivor
choice: `chooseKeep` returns `some k` for "keep index `k`, delete the
rest" (the scorched-earth branch always returns `some 0`) or `none` for
skip/keep-all.  Mirrors the `keepIndex != -1` guard of `runDedup`. -/
def processSet (removeOk : String → Bool) (chooseKeep : Option Nat)
    (files : List String) (cache : Cache) (bytes : Int)
    (removed : List String) : Cache × Int × List String :=
  match chooseKeep with
  | none => (cache, bytes, removed)
  | some k => deleteOthersAux removeOk k 0 files cache bytes removed

/-- The `for _, sig := range sigs` loop of `runDedup`: per signature,
sort its path list with the path comparator, choose a survivor, delete
the others, threading cache / bytesSaved / removed paths. -/
def runSets (choose : String → List String → Option Nat)
    (removeOk : String → Bool) (m : SigMap) (sigs : List String)
    (cache : Cache) (bytes : Int) (removed : List String) :
    Cache × Int × List String :=
  sigs.foldl
    (fun acc s =>
      let files := sortFiles (sigMapGet m s)
      processSet removeOk (choose s files) files acc.1 acc.2.1 acc.2.2)
    (cache, bytes, removed)

/-- The pruning loop of `runDedup`: drop every cache entry whose path
`os.Stat` reports as not existing (`notExist` embeds
`os.IsNotExist(os.Stat(path))`). -/
def pruneCache (notExist : String → Bool) (cache : Cache) : Cache :=
  cache.filter (fun kv => !notExist kv.1)

/-- The observable outcome of one `runDedup` invocation. -/
structure RunResult where
  duplicatesFound : Nat
  bytesSaved : Int
  removed : List String
  cache : Cache
deriving Repr, DecidableEq

/-- `runDedup` after the cache has been loaded, abstracted over the
per-set survivor choice (`choose`; the scorched-earth mode is
`fun _ _ => some 0`, the interactive mode feeds in the prompt loop's
outcome): scan, collect and sort duplicate signatures, resolve and
delete per set, prune, and report. -/
def runDedupWith (choose : String → List String → Option Nat)
    (sign : String → Option String) (removeOk : String → Bool)
    (notExist : String → Bool) (files : List FsFile) (cache0 : Cache) :
    RunResult :=
  let st := scanFiles sign cache0 files
  let sigs := dupSigs st.filesBySig
  let out := runSets choose removeOk st.filesBySig sigs st.cache 0 []
  { duplicatesFound := sigs.length
    bytesSaved := out.2.1
    removed := out.2.2
    cache := pruneCache notExist out.1 }

/-- `runDedup` with `scorchedEarth = true`: `keepIndex = 0` for every
duplicate set. -/
def runDedupAuto (sign : String → Option String) (removeOk : String → Bool)
    (notExist : String → Bool) (files : List FsFile) (cache0 : Cache) :
    RunResult :=
  runDedupWith (fun _ _ => some 0) sign removeOk notExist files cache0

/-- Leading decimal digits of a character list (what `fmt.Sscanf`'s `%d`
verb consumes; trailing non-digits are left unread and are not an error
for `Sscanf`). -/
def leadingDigits : List Char → List Char
  | [] => []
  | c :: rest => if c.isDigit then c :: leadingDigits rest else []

/-- Numeric value of a digit list. -/
def digitsVal (ds : List Char) : Nat :=
  ds.foldl (fun acc c => acc * 10 + (c.toNat - 48)) 0

/-- `fmt.Sscanf(input, "%d", &idx)`: an optional sign followed by at
least one digit at the front of the input; `none` models a scan error. -/
def sscanfInt (s : String) : Option Int :=
  match s.data with
  | '-' :: rest =>
    match leadingDigits rest with
    | [] => none
    | ds => some (-(digitsVal ds : Int))
  | '+' :: rest =>
    match leadingDigits rest with
    | [] => none
    | ds => some ((digitsVal ds : Int))
  | cs =>
    match leadingDigits cs with
    | [] => none
    | ds => some ((digitsVal ds : Int))

/-- `strings.TrimSpace`: strip leading and trailing whitespace. -/
def trimSpace (s : String) : String :=
  String.mk
    (((s.data.dropWhile Char.isWhitespace).reverse.dropWhile
      Char.isWhitespace).reverse)

/-- One iteration body of the interactive prompt loop of `runDedup`, on
the `strings.TrimSpace`d line: `some none` is skip/keep-all (`"s"` or
`"a"`), `some (some k)` keeps 0-based index `k` (a scanned integer in
`[1, n]`), `none` is invalid input (the loop re-prompts). -/
def promptStep (n : Nat) (line : String) : Option (Option Nat) :=
  let input := trimSpace line
  if input = "s" ∨ input = "a" then some none
  else
    match sscanfInt input with
    | some idx =>
      if 1 ≤ idx ∧ idx ≤ (n : Int) then some (some (idx - 1).toNat) else none
    | none => none

/-- The interactive prompt loop of `runDedup` over an input stream given
as its remaining lines, with explicit fuel.  An exhausted stream models a
closed stdin: `bufio.Reader.ReadString` then yields `""` together with an
`io.EOF` that the code discards (`input, _ := reader.ReadString`), so the
loop processes the empty line and iterates again on the same exhausted
stream.  `none` means the fuel ran out before the loop returned — the
loop has not terminated within `fuel` iterations. -/
def promptLoop (n : Nat) : Nat → List String → Option (Option Nat × List String)
  | 0, _ => none
  | fuel + 1, [] =>
    match promptStep n "" with
    | some r => some (r, [])
    | none => promptLoop n fuel []
  | fuel + 1, line :: rest =>
    match promptStep n line with
    | some r => some (r, rest)
    | none => promptLoop n fuel rest

/-- The state of the on-disk cache file, as distinguished by `LoadCache`:
absent (`os.Open` fails with `IsNotExist`), unopenable for another
reason, openable but undecodable JSON, or a decodable cache. -/
inductive CacheFile
  | missing
  | openFail
  | corrupt
  | good (c : Cache)
deriving Repr, DecidableEq

/-- `LoadCache` from the `dedup` package: a missing file and a decode
failure both yield an empty cache with no error; only a non-not-exist
open error is returned to the caller. -/
def LoadCache : CacheFile → Except Unit Cache
  | .missing => .ok []
  | .openFail => .error ()
  | .corrupt => .ok []
  | .good c => .ok c

/-- The load step of `runDedup`: on a `LoadCache` error, print a warning
and start from an empty cache. -/
def loadOrEmpty (cf : CacheFile) : Cache :=
  match LoadCache cf with
  | .ok c => c
  | .error _ => []

/-- `runDedup` from the cache file onwards: load (falling back to an
empty cache on error), then scan / resolve / delete / prune as in
`runDedupWith`.  (`SaveCache` errors are reported but change nothing
observable in the result.) -/
def runDedupFromFile (cf : CacheFile)
    (choose : String → List String → Option Nat)
    (sign : String → Option String) (removeOk : String → Bool)
    (notExist : String → Bool) (files : List FsFile) : RunResult :=
  runDedupWith choose sign removeOk notExist files (loadOrEmpty cf)

/-- The signature `UpdateEntry` resolves for a file against a given
cache: the stored signature on a metadata hit, otherwise the signer's
output (`none` when signing fails). -/
def scanSig (sign : String → Option String) (c : Cache) (f : FsFile) :
    Option String :=
  match alGet c f.path with
  | some e =>
    if e.modTime = f.info.modTime ∧ e.size = f.info.size then some e.signature
    else sign f.path
  | none => sign f.path

/-- The cache after `UpdateEntry` for a file: untouched on a hit or on a
signing failure, overwritten at the file's path on a fresh signature. -/
def scanCacheUpd (sign : String → Option String) (c : Cache) (f : FsFile) :
    Cache :=
  match alGet c f.path with
  | some e =>
    if e.modTime = f.info.modTime ∧ e.size = f.info.size then c
    else
      match sign f.path with
      | some s => alSet c f.path ⟨s, f.info.modTime, f.info.size⟩
      | none => c
  | none =>
    match sign f.path with
    | some s => alSet c f.path ⟨s, f.info.modTime, f.info.size⟩
    | none => c

/-- The cache entry found at a file's own path after the whole scan,
expressed against the pre-scan cache. -/
def scanEntryAt (sign : String → Option String) (cache0 : Cache)
    (f : FsFile) : Option FileEntry :=
  alGet (if isMediaPath f.path then scanCacheUpd sign cache0 f else cache0) f.path

/-- The indices the deletion loop attempts, starting at running index
`i`: every listed path except the one at `keepIndex`. -/
def attemptedFrom (keep : Nat) : Nat → List String → List String
  | _, [] => []
  | i, f :: rest =>
    if i = keep then attemptedFrom keep (i + 1) rest
    else f :: attemptedFrom keep (i + 1) rest

/-- The paths one duplicate set's resolution successfully removes. -/
def setRemoved (choose : String → List String → Option Nat)
    (removeOk : String → Bool) (m : SigMap) (s : String) : List String :=
  match choose s (sortFiles (sigMapGet m s)) with
  | none => []
  | some k =>
    (attemptedFrom k 0 (sortFiles (sigMapGet m s))).filter (fun f => removeOk f)

/-- Concatenation of a list-valued function over a list. -/
def concatMap (f : String → List String) : List String → List String
  | [] => []
  | s :: rest => f s ++ concatMap f rest

/-- All paths a full run successfully removes. -/
def runRemoved (choose : String → List String → Option Nat)
    (removeOk : String → Bool) (m : SigMap) : List String :=
  concatMap (setRemoved choose removeOk m) (dupSigs m)

/-! ### Association-list lemmas -/

theorem alGet_cons {β : Type} (k : String) (v : β) (rest : List (String × β))
    (q : String) : alGet ((k, v) :: rest) q = if k = q then some v else alGet rest q :=
  rfl

theorem alDel_cons {β : Type} (k₀ : String) (v₀ : β) (rest : List (String × β))
    (k : String) :
    alDel ((k₀, v₀) :: rest) k =
      if k₀ = k then alDel rest k else (k₀, v₀) :: alDel rest k := by
  simp only [alDel, List.filter_cons]
  by_cases h : k₀ = k
  · simp [h]
  · simp [h]

theorem alGet_alDel_self {β : Type} (m : List (String × β)) (k : String) :
    alGet (alDel m k) k = none := by
  induction m with
  | nil => rfl
  | cons kv rest ih =>
    obtain ⟨k₀, v₀⟩ := kv
    rw [alDel_cons]
    by_cases h : k₀ = k
    · rw [if_pos h]
      exact ih
    · rw [if_neg h, alGet_cons, if_neg h]
      exact ih

theorem alGet_alDel_ne {β : Type} (m : List (String × β)) (k q : String)
    (h : q ≠ k) : alGet (alDel m k) q = alGet m q := by
  induction m with
  | nil => rfl
  | cons kv rest ih =>
    obtain ⟨k₀, v₀⟩ := kv
    rw [alDel_cons]
    by_cases hk : k₀ = k
    · rw [if_pos hk, alGet_cons, if_neg (by rw [hk]; exact fun hq => h (Eq.symm hq))]
      exact ih
    · rw [if_neg hk, alGet_cons, alGet_cons]
      by_cases hq : k₀ = q
      · rw [if_pos hq, if_pos hq]
      · rw [if_neg hq, if_neg hq]
        exact ih

theorem alGet_alSet_self {β : Type} (m : List (String × β)) (k : String)
    (v : β) : alGet (alSet m k v) k = some v := by
  simp [alSet, alGet]

theorem alGet_alSet_ne {β : Type} (m : List (String × β)) (k q : String)
    (v : β) (h : q ≠ k) : alGet (alSet m k v) q = alGet m q := by
  rw [alSet, alGet_cons, if_neg (fun hq => h (Eq.symm hq))]
  exact alGet_alDel_ne m k q h

theorem pruneCache_cons (notExist : String → Bool) (k₀ : String)
    (v₀ : FileEntry) (rest : Cache) :
    pruneCache notExist ((k₀, v₀) :: rest) =
      if notExist k₀ then pruneCache notExist rest
      else (k₀, v₀) :: pruneCache notExist rest := by
  simp only [pruneCache, List.filter_cons]
  by_cases h : notExist k₀
  · simp [h]
  · simp [h]

theorem alGet_pruneCache (notExist : String → Bool) (c : Cache) (q : String) :
    alGet (pruneCache notExist c) q =
      if notExist q then none else alGet c q := by
  induction c with
  | nil => simp [pruneCache, alGet]
  | cons kv rest ih =>
    obtain ⟨k₀, v₀⟩ := kv
    rw [pruneCache_cons]
    by_cases hk : notExist k₀
    · rw [if_pos hk, ih, alGet_cons]
      by_cases hq : k₀ = q
      · subst hq
        simp [hk]
      · rw [if_neg hq]
    · rw [if_neg hk, alGet_cons, alGet_cons]
      by_cases hq : k₀ = q
      · subst hq
        rw [Bool.not_eq_true] at hk
        simp [hk]
      · rw [if_neg hq, if_neg hq, ih]

/-! ### `sigMapAppend` lemmas -/

theorem sigMapAppend_cons (k : String) (ps : List String) (rest : SigMap)
    (s p : String) :
    sigMapAppend ((k, ps) :: rest) s p =
      if k = s then (k, ps ++ [p]) :: rest
      else (k, ps) :: sigMapAppend rest s p :=
  rfl

theorem alGet_sigMapAppend_self (m : SigMap) (s p : String) :
    alGet (sigMapAppend m s p) s = some (sigMapGet m s ++ [p]) := by
  induction m with
  | nil => simp [sigMapAppend, alGet, sigMapGet]
  | cons kv rest ih =>
    obtain ⟨k, ps⟩ := kv
    rw [sigMapAppend_cons]
    by_cases h : k = s
    · subst h
      rw [if_pos rfl, alGet_cons, if_pos rfl]
      simp [sigMapGet, alGet_cons]
    · rw [if_neg h, alGet_cons, if_neg h, ih]
      simp [sigMapGet, alGet_cons, if_neg h]

theorem alGet_sigMapAppend_ne (m : SigMap) (s p q : String) (h : q ≠ s) :
    alGet (sigMapAppend m s p) q = alGet m q := by
  induction m with
  | nil =>
    simp only [sigMapAppend, alGet]
    rw [if_neg (fun hq => h (Eq.symm hq))]
  | cons kv rest ih =>
    obtain ⟨k, ps⟩ := kv
    rw [sigMapAppend_cons]
    by_cases hk : k = s
    · subst hk
      rw [if_pos rfl, alGet_cons, alGet_cons,
        if_neg (fun hq => h (Eq.symm hq)), if_neg (fun hq => h (Eq.symm hq))]
    · rw [if_neg hk, alGet_cons, alGet_cons]
      by_cases hq : k = q
      · rw [if_pos hq, if_pos hq]
      · rw [if_neg hq, if_neg hq]
        exact ih

theorem sigMapGet_sigMapAppend (m : SigMap) (s p q : String) :
    sigMapGet (sigMapAppend m s p) q =
      if q = s then sigMapGet m q ++ [p] else sigMapGet m q := by
  by_cases h : q = s
  · subst h
    simp [sigMapGet, alGet_sigMapAppend_self]
  · simp [sigMapGet, alGet_sigMapAppend_ne m s p q h, h]

theorem keys_sigMapAppend (m : SigMap) (s p : String) :
    (sigMapAppend m s p).map Prod.fst =
      if s ∈ m.map Prod.fst then m.map Prod.fst else m.map Prod.fst ++ [s] := by
  induction m with
  | nil => simp [sigMapAppend]
  | cons kv rest ih =>
    obtain ⟨k, ps⟩ := kv
    by_cases h : k = s
    · subst h
      simp [sigMapAppend]
    · simp only [sigMapAppend, if_neg h, List.map_cons]
      rw [ih]
      by_cases hs : s ∈ rest.map Prod.fst
      · simp [hs, Ne.symm h]
      · simp [hs, Ne.symm h]

theorem keys_nodup_sigMapAppend (m : SigMap) (s p : String)
    (h : (m.map Prod.fst).Nodup) : ((sigMapAppend m s p).map Prod.fst).Nodup := by
  rw [keys_sigMapAppend]
  by_cases hs : s ∈ m.map Prod.fst
  · simpa [hs] using h
  · simp only [if_neg hs]
    simpa [List.nodup_append, hs] using h

/-! ### `UpdateEntry` and `scanStep` case analysis -/

theorem UpdateEntry_eq (sign : String → Option String) (f : FsFile)
    (c : Cache) :
    UpdateEntry sign f.path f.info c =
      match scanSig sign c f with
      | none => none
      | some s => some (s, (!(match alGet c f.path with
          | some e => decide (e.modTime = f.info.modTime ∧ e.size = f.info.size)
          | none => false) : Bool), scanCacheUpd sign c f) := by
  unfold UpdateEntry scanSig scanCacheUpd
  match halGet : alGet c f.path with
  | some e =>
    dsimp only
    by_cases h : e.modTime = f.info.modTime ∧ e.size = f.info.size
    · simp [h]
    · match hs : sign f.path with
      | some s => simp [h]
      | none => simp [h]
  | none =>
    dsimp only
    match hs : sign f.path with
    | some s => simp
    | none => simp

theorem scanStep_eq (sign : String → Option String) (st : ScanState)
    (f : FsFile) :
    scanStep sign st f =
      if isMediaPath f.path then
        match scanSig sign st.cache f with
        | none => { st with errs := st.errs ++ [f.path] }
        | some s =>
          { st with
              cache := scanCacheUpd sign st.cache f
              filesBySig := sigMapAppend st.filesBySig s f.path }
      else st := by
  unfold scanStep
  by_cases hm : isMediaPath f.path
  · rw [if_pos hm, if_pos hm, UpdateEntry_eq]
    match hs : scanSig sign st.cache f with
    | none => rfl
    | some s => rfl
  · rw [if_neg hm, if_neg hm]

theorem scanSig_congr (sign : String → Option String) (c c' : Cache)
    (f : FsFile) (h : alGet c f.path = alGet c' f.path) :
    scanSig sign c f = scanSig sign c' f := by
  unfold scanSig
  rw [h]

theorem scanCacheUpd_get_ne (sign : String → Option String) (c : Cache)
    (f : FsFile) (q : String) (h : q ≠ f.path) :
    alGet (scanCacheUpd sign c f) q = alGet c q := by
  unfold scanCacheUpd
  match alGet c f.path with
  | some e =>
    dsimp only
    by_cases hh : e.modTime = f.info.modTime ∧ e.size = f.info.size
    · rw [if_pos hh]
    · rw [if_neg hh]
      match sign f.path with
      | some s => exact alGet_alSet_ne c f.path q _ h
      | none => rfl
  | none =>
    dsimp only
    match sign f.path with
    | some s => exact alGet_alSet_ne c f.path q _ h
    | none => rfl

theorem scanCacheUpd_get_self (sign : String → Option String) (c : Cache)
    (f : FsFile) (s : String) (h : scanSig sign c f = some s) :
    ∃ e, alGet (scanCacheUpd sign c f) f.path = some e ∧
      e.signature = s ∧ e.modTime = f.info.modTime ∧ e.size = f.info.size := by
  unfold scanSig at h
  unfold scanCacheUpd
  match halGet : alGet c f.path with
  | some e₀ =>
    rw [halGet] at h
    dsimp only at h ⊢
    by_cases hh : e₀.modTime = f.info.modTime ∧ e₀.size = f.info.size
    · rw [if_pos hh] at h ⊢
      refine ⟨e₀, halGet, Option.some.inj h, hh.1, hh.2⟩
    · rw [if_neg hh] at h ⊢
      match hs : sign f.path with
      | some s₀ =>
        rw [hs] at h
        exact ⟨⟨s₀, f.info.modTime, f.info.size⟩, alGet_alSet_self c f.path _,
          Option.some.inj h, rfl, rfl⟩
      | none => rw [hs] at h; exact absurd h (by simp)
  | none =>
    rw [halGet] at h
    dsimp only at h ⊢
    match hs : sign f.path with
    | some s₀ =>
      rw [hs] at h
      exact ⟨⟨s₀, f.info.modTime, f.info.size⟩, alGet_alSet_self c f.path _,
        Option.some.inj h, rfl, rfl⟩
    | none => rw [hs] at h; exact absurd h (by simp)

theorem scanCacheUpd_get_self_congr (sign : String → Option String)
    (c c₀ : Cache) (f : FsFile) (h : alGet c f.path = alGet c₀ f.path) :
    alGet (scanCacheUpd sign c f) f.path = alGet (scanCacheUpd sign c₀ f) f.path := by
  unfold scanCacheUpd
  rw [h]
  match alGet c₀ f.path with
  | some e =>
    dsimp only
    by_cases hh : e.modTime = f.info.modTime ∧ e.size = f.info.size
    · rw [if_pos hh, if_pos hh, h]
    · rw [if_neg hh, if_neg hh]
      match sign f.path with
      | some s => rw [alGet_alSet_self, alGet_alSet_self]
      | none => exact h
  | none =>
    dsimp only
    match sign f.path with
    | some s => rw [alGet_alSet_self, alGet_alSet_self]
    | none => exact h

theorem scanCacheUpd_fail (sign : String → Option String) (c : Cache)
    (f : FsFile) (h : scanSig sign c f = none) :
    scanCacheUpd sign c f = c := by
  unfold scanSig at h
  unfold scanCacheUpd
  match halGet : alGet c f.path with
  | some e =>
    rw [halGet] at h
    dsimp only at h ⊢
    by_cases hh : e.modTime = f.info.modTime ∧ e.size = f.info.size
    · rw [if_pos hh] at h; exact absurd h (by simp)
    · rw [if_neg hh] at h ⊢
      rw [h]
  | none =>
    rw [halGet] at h
    dsimp only at h ⊢
    rw [h]

theorem scanStep_not_media (sign : String → Option String) (st : ScanState)
    (f : FsFile) (hm : ¬ isMediaPath f.path = true) :
    scanStep sign st f = st := by
  rw [scanStep_eq, if_neg hm]

theorem scanStep_err (sign : String → Option String) (st : ScanState)
    (f : FsFile) (hm : isMediaPath f.path = true)
    (hsc : scanSig sign st.cache f = none) :
    scanStep sign st f = { st with errs := st.errs ++ [f.path] } := by
  rw [scanStep_eq, if_pos hm, hsc]

theorem scanStep_ok (sign : String → Option String) (st : ScanState)
    (f : FsFile) (s : String) (hm : isMediaPath f.path = true)
    (hsc : scanSig sign st.cache f = some s) :
    scanStep sign st f =
      { st with
          cache := scanCacheUpd sign st.cache f
          filesBySig := sigMapAppend st.filesBySig s f.path } := by
  rw [scanStep_eq, if_pos hm, hsc]

/-! ### Characterizing the whole scan -/

theorem scan_fold_bySig (sign : String → Option String) (files : List FsFile)
    (st : ScanState) (cache0 : Cache)
    (hnd : (files.map FsFile.path).Nodup)
    (hagree : ∀ f ∈ files, alGet st.cache f.path = alGet cache0 f.path)
    (s : String) :
    sigMapGet ((files.foldl (scanStep sign) st).filesBySig) s =
      sigMapGet st.filesBySig s ++
        (files.filter (fun f =>
          isMediaPath f.path &&
            decide (scanSig sign cache0 f = some s))).map FsFile.path := by
  induction files generalizing st with
  | nil => simp
  | cons f rest ih =>
    simp only [List.map_cons, List.nodup_cons] at hnd
    obtain ⟨hf_notin, hnd'⟩ := hnd
    have hagf : alGet st.cache f.path = alGet cache0 f.path :=
      hagree f (by simp)
    have hsig_eq : scanSig sign st.cache f = scanSig sign cache0 f :=
      scanSig_congr _ _ _ _ hagf
    rw [List.foldl_cons, List.filter_cons]
    by_cases hm : isMediaPath f.path
    · match hsc : scanSig sign cache0 f with
      | none =>
        rw [scanStep_err sign st f hm (hsig_eq.trans hsc)]
        rw [ih ⟨st.cache, st.filesBySig, st.errs ++ [f.path]⟩ hnd'
          (fun g hg => hagree g (by simp [hg]))]
        simp [hsc]
      | some s₀ =>
        rw [scanStep_ok sign st f s₀ hm (hsig_eq.trans hsc)]
        rw [ih ⟨scanCacheUpd sign st.cache f, sigMapAppend st.filesBySig s₀ f.path,
          st.errs⟩ hnd' ?hag]
        case hag =>
          intro g hg
          have hne : g.path ≠ f.path := by
            intro hgp
            exact hf_notin (hgp ▸ (List.mem_map_of_mem FsFile.path hg))
          dsimp only
          rw [scanCacheUpd_get_ne sign st.cache f g.path hne]
          exact hagree g (by simp [hg])
        dsimp only
        rw [sigMapGet_sigMapAppend]
        by_cases hss : s₀ = s
        · subst hss
          simp [hm, hsc, List.append_assoc]
        · have : ¬(s = s₀) := fun hq => hss hq.symm
          simp [hm, hsc, this, hss]
    · rw [scanStep_not_media sign st f hm]
      rw [ih _ hnd' (fun g hg => hagree g (by simp [hg]))]
      simp [hm]

theorem scan_fold_cache_notin (sign : String → Option String)
    (files : List FsFile) (st : ScanState) (q : String)
    (h : ∀ f ∈ files, f.path ≠ q) :
    alGet (files.foldl (scanStep sign) st).cache q = alGet st.cache q := by
  induction files generalizing st with
  | nil => rfl
  | cons f rest ih =>
    rw [List.foldl_cons]
    rw [ih _ (fun g hg => h g (by simp [hg]))]
    rw [scanStep_eq]
    by_cases hm : isMediaPath f.path
    · rw [if_pos hm]
      match hsc : scanSig sign st.cache f with
      | none => rfl
      | some s₀ =>
        dsimp only
        exact scanCacheUpd_get_ne sign st.cache f q
          (fun hq => h f (by simp) hq.symm)
    · rw [if_neg hm]

theorem scan_fold_cache_found (sign : String → Option String)
    (files : List FsFile) (st : ScanState) (cache0 : Cache) (f : FsFile)
    (hnd : (files.map FsFile.path).Nodup)
    (hagree : ∀ g ∈ files, alGet st.cache g.path = alGet cache0 g.path)
    (hf : f ∈ files) :
    alGet (files.foldl (scanStep sign) st).cache f.path =
      scanEntryAt sign cache0 f := by
  induction files generalizing st with
  | nil => exact absurd hf (by simp)
  | cons g rest ih =>
    simp only [List.map_cons, List.nodup_cons] at hnd
    obtain ⟨hg_notin, hnd'⟩ := hnd
    have hagg : alGet st.cache g.path = alGet cache0 g.path :=
      hagree g (by simp)
    rw [List.foldl_cons]
    rcases List.mem_cons.mp hf with hfg | hfrest
    · subst hfg
      have hrest : ∀ r ∈ rest, r.path ≠ f.path := by
        intro r hr hrp
        exact hg_notin (hrp ▸ (List.mem_map_of_mem FsFile.path hr))
      rw [scan_fold_cache_notin sign rest _ f.path hrest]
      rw [scanStep_eq]
      unfold scanEntryAt
      by_cases hm : isMediaPath f.path
      · rw [if_pos hm, if_pos hm]
        match hsc : scanSig sign st.cache f with
        | none =>
          dsimp only
          rw [scanCacheUpd_fail sign cache0 f ((scanSig_congr sign cache0 st.cache f hagg.symm).trans hsc)]
          exact hagg
        | some s₀ =>
          dsimp only
          exact scanCacheUpd_get_self_congr sign st.cache cache0 f hagg
      · rw [if_neg hm, if_neg hm]
        exact hagg
    · have hgf : g.path ≠ f.path := by
        intro hgp
        exact hg_notin (hgp ▸ (List.mem_map_of_mem FsFile.path hfrest))
      refine ih _ hnd' ?_ hfrest
      intro r hr
      have hrg : r.path ≠ g.path := by
        intro hrp
        exact hg_notin (hrp ▸ (List.mem_map_of_mem FsFile.path hr))
      rw [scanStep_eq]
      by_cases hm : isMediaPath g.path
      · rw [if_pos hm]
        match hsc : scanSig sign st.cache g with
        | none => exact hagree r (by simp [hr])
        | some s₀ =>
          dsimp only
          rw [scanCacheUpd_get_ne sign st.cache g r.path hrg]
          exact hagree r (by simp [hr])
      · rw [if_neg hm]
        exact hagree r (by simp [hr])

theorem scan_fold_errs (sign : String → Option String) (files : List FsFile)
    (st : ScanState) (cache0 : Cache)
    (hnd : (files.map FsFile.path).Nodup)
    (hagree : ∀ f ∈ files, alGet st.cache f.path = alGet cache0 f.path) :
    (files.foldl (scanStep sign) st).errs =
      st.errs ++
        (files.filter (fun f =>
          isMediaPath f.path &&
            decide (scanSig sign cache0 f = none))).map FsFile.path := by
  induction files generalizing st with
  | nil => simp
  | cons f rest ih =>
    simp only [List.map_cons, List.nodup_cons] at hnd
    obtain ⟨hf_notin, hnd'⟩ := hnd
    have hagf : alGet st.cache f.path = alGet cache0 f.path :=
      hagree f (by simp)
    have hsig_eq : scanSig sign st.cache f = scanSig sign cache0 f :=
      scanSig_congr _ _ _ _ hagf
    rw [List.foldl_cons, List.filter_cons]
    by_cases hm : isMediaPath f.path
    · match hsc : scanSig sign cache0 f with
      | none =>
        rw [scanStep_err sign st f hm (hsig_eq.trans hsc)]
        rw [ih ⟨st.cache, st.filesBySig, st.errs ++ [f.path]⟩ hnd'
          (fun g hg => hagree g (by simp [hg]))]
        simp [hsc, hm, List.append_assoc]
      | some s₀ =>
        rw [scanStep_ok sign st f s₀ hm (hsig_eq.trans hsc)]
        rw [ih ⟨scanCacheUpd sign st.cache f, sigMapAppend st.filesBySig s₀ f.path,
          st.errs⟩ hnd' ?hag2]
        case hag2 =>
          intro g hg
          have hne : g.path ≠ f.path := by
            intro hgp
            exact hf_notin (hgp ▸ (List.mem_map_of_mem FsFile.path hg))
          dsimp only
          rw [scanCacheUpd_get_ne sign st.cache f g.path hne]
          exact hagree g (by simp [hg])
        simp [hsc, hm]
    · rw [scanStep_not_media sign st f hm]
      rw [ih _ hnd' (fun g hg => hagree g (by simp [hg]))]
      simp [hm]

/-! ### `dupSigs` lemmas -/

theorem alGet_eq_some_of_mem (m : SigMap) (s : String) (v : List String)
    (hk : (m.map Prod.fst).Nodup) (h : (s, v) ∈ m) : alGet m s = some v := by
  induction m with
  | nil => exact absurd h (by simp)
  | cons kv rest ih =>
    simp only [List.map_cons, List.nodup_cons] at hk
    rcases List.mem_cons.mp h with h1 | h1
    · rw [← h1, alGet_cons, if_pos rfl]
    · obtain ⟨k, ps⟩ := kv
      rw [alGet_cons]
      have hksne : k ≠ s := by
        intro hks
        apply hk.1
        rw [hks]
        exact List.mem_map.mpr ⟨(s, v), h1, rfl⟩
      rw [if_neg hksne]
      exact ih hk.2 h1

theorem mem_of_alGet_eq_some (m : SigMap) (s : String) (v : List String)
    (h : alGet m s = some v) : (s, v) ∈ m := by
  induction m with
  | nil => exact absurd h (by simp [alGet])
  | cons kv rest ih =>
    obtain ⟨k, ps⟩ := kv
    rw [alGet_cons] at h
    by_cases hks : k = s
    · rw [if_pos hks] at h
      subst hks
      have hpv : ps = v := Option.some.inj h
      subst hpv
      exact List.mem_cons_self _ _
    · rw [if_neg hks] at h
      exact List.mem_cons.mpr (Or.inr (ih h))

theorem mem_dupSigs (m : SigMap) (hk : (m.map Prod.fst).Nodup) (s : String) :
    s ∈ dupSigs m ↔ 2 ≤ (sigMapGet m s).length := by
  unfold dupSigs sortSigs
  rw [(List.perm_insertionSort _ _).mem_iff]
  constructor
  · intro h
    obtain ⟨kv, hkv, hfst⟩ := List.mem_map.mp h
    obtain ⟨hmem, hlen⟩ := List.mem_filter.mp hkv
    have : alGet m s = some kv.2 := by
      refine alGet_eq_some_of_mem m s kv.2 hk ?_
      rw [← hfst]
      exact hmem
    simp only [sigMapGet, this, Option.getD_some]
    simpa using hlen
  · intro h
    match hg : alGet m s with
    | none => rw [sigMapGet, hg] at h; simp at h
    | some ps =>
      rw [sigMapGet, hg] at h
      refine List.mem_map.mpr ⟨(s, ps), List.mem_filter.mpr ⟨mem_of_alGet_eq_some m s ps hg, ?_⟩, rfl⟩
      simpa using h

theorem dupSigs_sorted (m : SigMap) : (dupSigs m).Sorted (· ≤ ·) :=
  List.sorted_insertionSort _ _

theorem dupSigs_nodup (m : SigMap) (hk : (m.map Prod.fst).Nodup) :
    (dupSigs m).Nodup := by
  unfold dupSigs sortSigs
  refine (List.perm_insertionSort _ _).nodup_iff.mpr ?_
  have hsub : List.Sublist ((m.filter (fun kv => 1 < kv.2.length)).map Prod.fst)
      (m.map Prod.fst) := (List.filter_sublist m).map Prod.fst
  exact hk.sublist hsub

theorem dupSigs_perm (m m' : SigMap) (h : m'.Perm m) :
    dupSigs m' = dupSigs m := by
  unfold dupSigs sortSigs
  have h1 : List.Perm ((m'.filter (fun kv => 1 < kv.2.length)).map Prod.fst)
      ((m.filter (fun kv => 1 < kv.2.length)).map Prod.fst) :=
    (h.filter _).map Prod.fst
  refine List.eq_of_perm_of_sorted ?_ (List.sorted_insertionSort _ _)
    (List.sorted_insertionSort _ _)
  exact ((List.perm_insertionSort _ _).trans h1).trans
    (List.perm_insertionSort _ _).symm

theorem dupSigs_eq_nil (m : SigMap) (hk : (m.map Prod.fst).Nodup)
    (h : ∀ s, (sigMapGet m s).length ≤ 1) : dupSigs m = [] := by
  rw [List.eq_nil_iff_forall_not_mem]
  intro s hs
  have := (mem_dupSigs m hk s).mp hs
  have := h s
  omega

/-! ### Deletion-loop lemmas -/

theorem deleteOthersAux_bytes (removeOk : String → Bool) (keep : Nat)
    (files : List String) (i : Nat) (c : Cache) (b : Int)
    (r : List String) :
    (deleteOthersAux removeOk keep i files c b r).2.1 = b := by
  induction files generalizing i c b r with
  | nil => rfl
  | cons f rest ih =>
    unfold deleteOthersAux
    by_cases hik : i = keep
    · rw [if_pos hik]
      exact ih _ _ _ _
    · rw [if_neg hik]
      by_cases hok : removeOk f
      · rw [if_pos hok]
        dsimp only
        rw [alGet_alDel_self]
        exact ih _ _ _ _
      · rw [if_neg hok]
        exact ih _ _ _ _

theorem deleteOthersAux_removed (removeOk : String → Bool) (keep : Nat)
    (files : List String) (i : Nat) (c : Cache) (b : Int)
    (r : List String) :
    (deleteOthersAux removeOk keep i files c b r).2.2 =
      r ++ (attemptedFrom keep i files).filter (fun f => removeOk f) := by
  induction files generalizing i c b r with
  | nil => simp [deleteOthersAux, attemptedFrom]
  | cons f rest ih =>
    unfold deleteOthersAux attemptedFrom
    by_cases hik : i = keep
    · rw [if_pos hik, if_pos hik]
      exact ih _ _ _ _
    · rw [if_neg hik, if_neg hik]
      by_cases hok : removeOk f
      · rw [if_pos hok]
        dsimp only
        rw [alGet_alDel_self]
        rw [ih _ _ _ _, List.filter_cons, if_pos (by simpa using hok)]
        simp
      · rw [if_neg hok]
        rw [ih _ _ _ _, List.filter_cons, if_neg (by simpa using hok)]

theorem deleteOthersAux_cache (removeOk : String → Bool) (keep : Nat)
    (files : List String) (i : Nat) (c : Cache) (b : Int)
    (r : List String) (q : String) :
    alGet (deleteOthersAux removeOk keep i files c b r).1 q =
      if q ∈ (attemptedFrom keep i files).filter (fun f => removeOk f) then none
      else alGet c q := by
  induction files generalizing i c b r with
  | nil => simp [deleteOthersAux, attemptedFrom]
  | cons f rest ih =>
    unfold deleteOthersAux attemptedFrom
    by_cases hik : i = keep
    · rw [if_pos hik, if_pos hik]
      exact ih _ _ _ _
    · rw [if_neg hik, if_neg hik]
      by_cases hok : removeOk f
      · rw [if_pos hok]
        dsimp only
        rw [alGet_alDel_self]
        have hfc : (f :: attemptedFrom keep (i + 1) rest).filter
            (fun g => removeOk g) =
            f :: (attemptedFrom keep (i + 1) rest).filter (fun g => removeOk g) := by
          simp [hok]
        rw [ih _ _ _ _, hfc]
        by_cases hqf : q = f
        · subst hqf
          simp [alGet_alDel_self]
        · rw [alGet_alDel_ne c f q hqf]
          simp [List.mem_cons, hqf]
      · rw [if_neg hok]
        have hfc : (f :: attemptedFrom keep (i + 1) rest).filter
            (fun g => removeOk g) =
            (attemptedFrom keep (i + 1) rest).filter (fun g => removeOk g) := by
          simp [hok]
        rw [ih _ _ _ _, hfc]

theorem attemptedFrom_of_lt (keep : Nat) (files : List String) (i : Nat)
    (h : keep < i) : attemptedFrom keep i files = files := by
  induction files generalizing i with
  | nil => rfl
  | cons f rest ih =>
    unfold attemptedFrom
    rw [if_neg (by omega)]
    rw [ih (i + 1) (by omega)]

theorem attemptedFrom_zero_cons (f : String) (rest : List String) :
    attemptedFrom 0 0 (f :: rest) = rest := by
  unfold attemptedFrom
  rw [if_pos rfl]
  exact attemptedFrom_of_lt 0 rest 1 (by omega)

/-! ### `runSets` lemmas -/

theorem runSets_nil (choose : String → List String → Option Nat)
    (removeOk : String → Bool) (m : SigMap) (c : Cache) (b : Int)
    (r : List String) : runSets choose removeOk m [] c b r = (c, b, r) :=
  rfl

theorem runSets_cons (choose : String → List String → Option Nat)
    (removeOk : String → Bool) (m : SigMap) (s : String)
    (rest : List String) (c : Cache) (b : Int) (r : List String) :
    runSets choose removeOk m (s :: rest) c b r =
      runSets choose removeOk m rest
        (processSet removeOk (choose s (sortFiles (sigMapGet m s)))
          (sortFiles (sigMapGet m s)) c b r).1
        (processSet removeOk (choose s (sortFiles (sigMapGet m s)))
          (sortFiles (sigMapGet m s)) c b r).2.1
        (processSet removeOk (choose s (sortFiles (sigMapGet m s)))
          (sortFiles (sigMapGet m s)) c b r).2.2 :=
  rfl

theorem processSet_none (removeOk : String → Bool) (files : List String)
    (c : Cache) (b : Int) (r : List String) :
    processSet removeOk none files c b r = (c, b, r) :=
  rfl

theorem processSet_some (removeOk : String → Bool) (k : Nat)
    (files : List String) (c : Cache) (b : Int) (r : List String) :
    processSet removeOk (some k) files c b r =
      deleteOthersAux removeOk k 0 files c b r :=
  rfl

theorem concatMap_cons (f : String → List String) (s : String)
    (rest : List String) :
    concatMap f (s :: rest) = f s ++ concatMap f rest :=
  rfl

theorem setRemoved_none (choose : String → List String → Option Nat)
    (removeOk : String → Bool) (m : SigMap) (s : String)
    (h : choose s (sortFiles (sigMapGet m s)) = none) :
    setRemoved choose removeOk m s = [] := by
  unfold setRemoved
  rw [h]

theorem setRemoved_some (choose : String → List String → Option Nat)
    (removeOk : String → Bool) (m : SigMap) (s : String) (k : Nat)
    (h : choose s (sortFiles (sigMapGet m s)) = some k) :
    setRemoved choose removeOk m s =
      (attemptedFrom k 0 (sortFiles (sigMapGet m s))).filter
        (fun f => removeOk f) := by
  unfold setRemoved
  rw [h]

theorem runSets_bytes (choose : String → List String → Option Nat)
    (removeOk : String → Bool) (m : SigMap) (sigs : List String)
    (c : Cache) (b : Int) (r : List String) :
    (runSets choose removeOk m sigs c b r).2.1 = b := by
  induction sigs generalizing c b r with
  | nil => rfl
  | cons s rest ih =>
    rw [runSets_cons]
    match hch : choose s (sortFiles (sigMapGet m s)) with
    | none =>
      rw [processSet_none]
      exact ih c b r
    | some k =>
      rw [processSet_some]
      rw [ih _ _ _]
      exact deleteOthersAux_bytes removeOk k (sortFiles (sigMapGet m s)) 0 c b r

theorem runSets_removed (choose : String → List String → Option Nat)
    (removeOk : String → Bool) (m : SigMap) (sigs : List String)
    (c : Cache) (b : Int) (r : List String) :
    (runSets choose removeOk m sigs c b r).2.2 =
      r ++ concatMap (setRemoved choose removeOk m) sigs := by
  induction sigs generalizing c b r with
  | nil => simp [runSets_nil, concatMap]
  | cons s rest ih =>
    rw [runSets_cons, concatMap_cons]
    match hch : choose s (sortFiles (sigMapGet m s)) with
    | none =>
      rw [processSet_none, setRemoved_none choose removeOk m s hch]
      rw [ih c b r]
      simp
    | some k =>
      rw [processSet_some, setRemoved_some choose removeOk m s k hch]
      rw [ih _ _ _]
      rw [deleteOthersAux_removed]
      rw [List.append_assoc]

theorem runSets_cache (choose : String → List String → Option Nat)
    (removeOk : String → Bool) (m : SigMap) (sigs : List String)
    (c : Cache) (b : Int) (r : List String) (q : String) :
    alGet (runSets choose removeOk m sigs c b r).1 q =
      if q ∈ concatMap (setRemoved choose removeOk m) sigs then none
      else alGet c q := by
  induction sigs generalizing c b r with
  | nil => simp [runSets_nil, concatMap]
  | cons s rest ih =>
    rw [runSets_cons, concatMap_cons]
    match hch : choose s (sortFiles (sigMapGet m s)) with
    | none =>
      rw [processSet_none, setRemoved_none choose removeOk m s hch]
      rw [ih c b r]
      simp
    | some k =>
      rw [processSet_some, setRemoved_some choose removeOk m s k hch]
      rw [ih _ _ _]
      rw [deleteOthersAux_cache]
      by_cases h1 : q ∈ (attemptedFrom k 0 (sortFiles (sigMapGet m s))).filter
          (fun f => removeOk f)
      · rw [if_pos h1,
          if_pos (List.mem_append.mpr (Or.inl h1))]
        by_cases h2 : q ∈ concatMap (setRemoved choose removeOk m) rest
        · rw [if_pos h2]
        · rw [if_neg h2]
      · by_cases h2 : q ∈ concatMap (setRemoved choose removeOk m) rest
        · rw [if_pos h2, if_pos (List.mem_append.mpr (Or.inr h2))]
        · rw [if_neg h2, if_neg h1,
            if_neg (by
              intro hmem
              rcases List.mem_append.mp hmem with hl | hr
              · exact h1 hl
              · exact h2 hr)]

/-! ### `sortFiles` lemmas -/

theorem pathLe_refl (a : String) : pathLe a a := by
  unfold pathLe
  simp

theorem sortFiles_perm (l : List String) : (sortFiles l).Perm l :=
  List.perm_insertionSort _ _

theorem sortFiles_sorted (l : List String) : (sortFiles l).Sorted pathLe :=
  List.sorted_insertionSort _ _

theorem sortFiles_nodup (l : List String) (h : l.Nodup) :
    (sortFiles l).Nodup :=
  (sortFiles_perm l).nodup_iff.mpr h

theorem sortFiles_head_min (l : List String) (first : String)
    (others : List String) (h : sortFiles l = first :: others) :
    ∀ x ∈ l, pathLe first x := by
  intro x hx
  have hx' : x ∈ first :: others := h ▸ (sortFiles_perm l).symm.subset hx
  rcases List.mem_cons.mp hx' with h1 | h1
  · subst h1
    exact pathLe_refl x
  · have hs := sortFiles_sorted l
    rw [h] at hs
    exact (List.sorted_cons.mp hs).1 x h1

theorem sortFiles_eq_of_perm (l l' : List String) (h : l.Perm l') :
    sortFiles l = sortFiles l' := by
  refine List.eq_of_perm_of_sorted ?_ (sortFiles_sorted l) (sortFiles_sorted l')
  exact ((sortFiles_perm l).trans h).trans (sortFiles_perm l').symm

/-! ### Misc list lemmas -/

theorem path_inj_of_nodup (files : List FsFile)
    (hnd : (files.map FsFile.path).Nodup) (f g : FsFile) (hf : f ∈ files)
    (hg : g ∈ files) (h : f.path = g.path) : f = g := by
  induction files with
  | nil => exact absurd hf (by simp)
  | cons x rest ih =>
    simp only [List.map_cons, List.nodup_cons] at hnd
    rcases List.mem_cons.mp hf with hf1 | hf1 <;>
      rcases List.mem_cons.mp hg with hg1 | hg1
    · rw [hf1, hg1]
    · exfalso
      apply hnd.1
      rw [hf1] at h
      rw [h]
      exact List.mem_map.mpr ⟨g, hg1, rfl⟩
    · exfalso
      apply hnd.1
      rw [hg1] at h
      rw [← h]
      exact List.mem_map.mpr ⟨f, hf1, rfl⟩
    · exact ih hnd.2 hf1 hg1

theorem length_le_one_of_all_eq (l : List String) (a : String)
    (hnd : l.Nodup) (h : ∀ x ∈ l, x = a) : l.length ≤ 1 := by
  match l with
  | [] => simp
  | [x] => simp
  | x :: y :: rest =>
    exfalso
    simp only [List.nodup_cons] at hnd
    have hx : x = a := h x (by simp)
    have hy : y = a := h y (by simp)
    exact hnd.1 (by rw [hx, hy]; simp)

theorem mem_attemptedFrom (keep i : Nat) (files : List String) (q : String)
    (h : q ∈ attemptedFrom keep i files) : q ∈ files := by
  induction files generalizing i with
  | nil => simp [attemptedFrom] at h
  | cons f rest ih =>
    unfold attemptedFrom at h
    by_cases hik : i = keep
    · rw [if_pos hik] at h
      exact List.mem_cons.mpr (Or.inr (ih _ h))
    · rw [if_neg hik] at h
      rcases List.mem_cons.mp h with h1 | h1
      · exact List.mem_cons.mpr (Or.inl h1)
      · exact List.mem_cons.mpr (Or.inr (ih _ h1))

theorem mem_concatMap (f : String → List String) (l : List String)
    (q : String) : q ∈ concatMap f l ↔ ∃ s ∈ l, q ∈ f s := by
  induction l with
  | nil => simp [concatMap]
  | cons s rest ih =>
    rw [concatMap_cons]
    simp only [List.mem_append, ih, List.mem_cons]
    constructor
    · rintro (h | ⟨s', hs', hq⟩)
      · exact ⟨s, Or.inl rfl, h⟩
      · exact ⟨s', Or.inr hs', hq⟩
    · rintro ⟨s', (rfl | hs'), hq⟩
      · exact Or.inl hq
      · exact Or.inr ⟨s', hs', hq⟩

/-! ### Claim theorems -/

/-- C1 (refuted, code bug): the claim says every successfully removed
non-survivor contributes its recorded cache-entry size to the reported
bytes-reclaimed total.  In the code the cache entry is deleted
(`delete(cache, f)`) before its size is looked up (`cache[files[i]]`
with `files[i] == f`), so the lookup always misses and the total stays
`0` on every run — even on a run that successfully removes a duplicate
whose cache entry records size 1000. -/
theorem bytesSaved_always_zero :
    (∀ choose sign removeOk notExist files cache0,
      (runDedupWith choose sign removeOk notExist files cache0).bytesSaved = 0) ∧
    (runDedupAuto (fun _ => some "X") (fun _ => true) (fun _ => false)
        [⟨"a/bb.mp3", ⟨10, 1000⟩⟩, ⟨"a/b.mp3", ⟨10, 1000⟩⟩] []).removed =
      ["a/bb.mp3"] ∧
    (runDedupAuto (fun _ => some "X") (fun _ => true) (fun _ => false)
        [⟨"a/bb.mp3", ⟨10, 1000⟩⟩, ⟨"a/b.mp3", ⟨10, 1000⟩⟩] []).bytesSaved =
      0 := by
  refine ⟨?_, by decide, by decide⟩
  intro choose sign removeOk notExist files cache0
  exact runSets_bytes choose removeOk _ _ _ 0 []

/-- C2 (refuted, code bug): the claim says the interactive prompt loop
terminates whenever the input stream reaches end-of-stream.  The code
discards the `io.EOF` returned by `ReadString` (`input, _ := ...`), so
an exhausted stream yields the empty line, which is invalid input, and
the loop re-prompts forever: for every amount of fuel, running the loop
on the exhausted stream fails to return. -/
theorem promptLoop_stuck_at_eof (n : Nat) :
    ∀ fuel, promptLoop n fuel [] = none := by
  intro fuel
  induction fuel with
  | zero => rfl
  | succ k ih =>
    unfold promptLoop
    rw [show promptStep n "" = none from rfl]
    exact ih

/-- C3: `UpdateEntry` returns the stored signature with `fresh = false`
exactly when the store holds an entry for the path whose stored modTime
and size equal the live metadata; otherwise it computes the content
digest, overwrites the store entry for that path with
`{signature, modTime, size}` (leaving every other key unchanged), and
returns the new signature with `fresh = true`. -/
theorem updateEntry_hit_or_refresh (sign : String → Option String)
    (path : String) (info : FileInfo) (cache : Cache) (s' : String)
    (hs : sign path = some s') :
    (∀ e, alGet cache path = some e → e.modTime = info.modTime →
      e.size = info.size →
      UpdateEntry sign path info cache = some (e.signature, false, cache)) ∧
    ((∀ e, alGet cache path = some e →
        ¬(e.modTime = info.modTime ∧ e.size = info.size)) →
      UpdateEntry sign path info cache =
        some (s', true, alSet cache path ⟨s', info.modTime, info.size⟩) ∧
      alGet (alSet cache path ⟨s', info.modTime, info.size⟩) path =
        some ⟨s', info.modTime, info.size⟩ ∧
      ∀ q, q ≠ path →
        alGet (alSet cache path ⟨s', info.modTime, info.size⟩) q =
          alGet cache q) := by
  constructor
  · intro e he hmt hsz
    unfold UpdateEntry
    rw [he]
    dsimp only
    rw [if_pos ⟨hmt, hsz⟩]
  · intro hmiss
    refine ⟨?_, alGet_alSet_self _ _ _, fun q hq => alGet_alSet_ne _ _ _ _ hq⟩
    unfold UpdateEntry
    match hg : alGet cache path with
    | some e =>
      dsimp only
      rw [if_neg (hmiss e hg), hs]
    | none =>
      dsimp only
      rw [hs]

/-- Witness for C3: a fresh computation on an empty store, and a cache
hit on a store whose entry matches the live metadata. -/
theorem updateEntry_hit_or_refresh_witness :
    (UpdateEntry (fun _ => some "X") "p" ⟨1, 2⟩ [] =
      some ("X", true, alSet [] "p" ⟨"X", 1, 2⟩)) ∧
    (alGet (alSet ([] : Cache) "p" ⟨"X", 1, 2⟩) "p" = some ⟨"X", 1, 2⟩) ∧
    (alGet (alSet ([] : Cache) "p" ⟨"X", 1, 2⟩) "q" = alGet ([] : Cache) "q") ∧
    (UpdateEntry (fun _ => some "X") "p" ⟨1, 2⟩ [("p", ⟨"OLD", 1, 2⟩)] =
      some ("OLD", false, [("p", ⟨"OLD", 1, 2⟩)])) := by
  have hfresh := (updateEntry_hit_or_refresh (fun _ => some "X") "p" ⟨1, 2⟩ []
    "X" rfl).2 (fun e he => by simp [alGet] at he)
  have hhit := (updateEntry_hit_or_refresh (fun _ => some "X") "p" ⟨1, 2⟩
    [("p", ⟨"OLD", 1, 2⟩)] "X" rfl).1 ⟨"OLD", 1, 2⟩ rfl rfl rfl
  exact ⟨hfresh.1, hfresh.2.1, hfresh.2.2 "q" (by decide), hhit⟩

/-- C9: a missing cache file and an undecodable cache file both load as
an empty cache with no error; a load error makes the orchestrator fall
back to an empty cache; and in every case the run proceeds through
scan, resolution, pruning and save with the resulting cache. -/
theorem loadCache_never_fatal :
    LoadCache CacheFile.missing = Except.ok ([] : Cache) ∧
    LoadCache CacheFile.corrupt = Except.ok ([] : Cache) ∧
    loadOrEmpty CacheFile.missing = [] ∧
    loadOrEmpty CacheFile.corrupt = [] ∧
    loadOrEmpty CacheFile.openFail = [] ∧
    ∀ cf choose sign removeOk notExist files,
      runDedupFromFile cf choose sign removeOk notExist files =
        runDedupWith choose sign removeOk notExist files (loadOrEmpty cf) :=
  ⟨rfl, rfl, rfl, rfl, rfl, fun _ _ _ _ _ _ => rfl⟩

/-- C5: the duplicate sets are exactly the signatures holding two or
more paths (so each duplicate set has at least two paths), they are
processed in ascending lexicographic order of the signature strings,
and the order is deterministic: any permutation of the signature → paths
map yields the same sorted signature list. -/
theorem dupSigs_spec (m : SigMap) (hk : (m.map Prod.fst).Nodup) :
    (∀ s, s ∈ dupSigs m ↔ 2 ≤ (sigMapGet m s).length) ∧
    (dupSigs m).Sorted (fun a b => a ≤ b) ∧
    (dupSigs m).Nodup ∧
    ∀ m', m'.Perm m → dupSigs m' = dupSigs m :=
  ⟨mem_dupSigs m hk, dupSigs_sorted m, dupSigs_nodup m hk,
    fun m' h => dupSigs_perm m m' h⟩

/-- Witness for C5 on a concrete two-signature map, including the
permuted-input determinism. -/
theorem dupSigs_spec_witness :
    ("b" ∈ dupSigs [("b", ["1", "2"]), ("a", ["3"])] ↔
      2 ≤ (sigMapGet [("b", ["1", "2"]), ("a", ["3"])] "b").length) ∧
    ("a" ∈ dupSigs [("b", ["1", "2"]), ("a", ["3"])] ↔
      2 ≤ (sigMapGet [("b", ["1", "2"]), ("a", ["3"])] "a").length) ∧
    (dupSigs [("b", ["1", "2"]), ("a", ["3"])]).Sorted (fun a b => a ≤ b) ∧
    dupSigs [("a", ["3"]), ("b", ["1", "2"])] =
      dupSigs [("b", ["1", "2"]), ("a", ["3"])] := by
  have h := dupSigs_spec [("b", ["1", "2"]), ("a", ["3"])] (by decide)
  exact ⟨h.1 "b", h.1 "a", h.2.1, h.2.2.2 _ (by decide)⟩

/-- C8: pruning is applied unconditionally to the cache the run ends
with (the same expression whether or not any duplicate set was found):
every entry whose path the existence check reports as gone is removed,
and every surviving key refers to a path that existed at prune time. -/
theorem prune_runs_unconditionally
    (choose : String → List String → Option Nat)
    (sign : String → Option String) (removeOk : String → Bool)
    (notExist : String → Bool) (files : List FsFile) (cache0 : Cache) :
    ((runDedupWith choose sign removeOk notExist files cache0).cache =
      pruneCache notExist
        (runSets choose removeOk (scanFiles sign cache0 files).filesBySig
          (dupSigs (scanFiles sign cache0 files).filesBySig)
          (scanFiles sign cache0 files).cache 0 []).1) ∧
    (∀ k, notExist k = true →
      alGet (runDedupWith choose sign removeOk notExist files cache0).cache k =
        none) ∧
    (∀ k e,
      alGet (runDedupWith choose sign removeOk notExist files cache0).cache k =
        some e → notExist k = false) := by
  have hc : (runDedupWith choose sign removeOk notExist files cache0).cache =
      pruneCache notExist
        (runSets choose removeOk (scanFiles sign cache0 files).filesBySig
          (dupSigs (scanFiles sign cache0 files).filesBySig)
          (scanFiles sign cache0 files).cache 0 []).1 := rfl
  refine ⟨hc, ?_, ?_⟩
  · intro k hk
    rw [hc, alGet_pruneCache, if_pos hk]
  · intro k e hke
    rw [hc, alGet_pruneCache] at hke
    by_cases h : notExist k
    · rw [if_pos h] at hke
      exact absurd hke (by simp)
    · exact Bool.eq_false_iff.mpr h

/-- C4: in scorched-earth mode the survivor of a duplicate set is index
0 of the path list sorted shortest-first with lexicographic tie-break:
it is a minimum of the set under the path comparator, it is never passed
to deletion, and every other path of the set is deleted; concretely the
set `["a/bb.mp3", "a/b.mp3"]` sorts to `["a/b.mp3", "a/bb.mp3"]` in
either accumulation order, and a full automatic run on those two files
(in the reversed walk order) removes exactly `"a/bb.mp3"`. -/
theorem scorched_survivor (files : List String) (c : Cache) (b : Int)
    (r : List String) (first : String) (others : List String)
    (hnd : files.Nodup) (hsort : sortFiles files = first :: others) :
    ((deleteOthersAux (fun _ => true) 0 0 (sortFiles files) c b r).2.2 =
      r ++ others) ∧
    first ∉ others ∧
    (∀ x ∈ files, pathLe first x) ∧
    sortFiles ["a/bb.mp3", "a/b.mp3"] = ["a/b.mp3", "a/bb.mp3"] ∧
    sortFiles ["a/b.mp3", "a/bb.mp3"] = ["a/b.mp3", "a/bb.mp3"] ∧
    (runDedupAuto (fun _ => some "X") (fun _ => true) (fun _ => false)
        [⟨"a/b.mp3", ⟨10, 1000⟩⟩, ⟨"a/bb.mp3", ⟨10, 1000⟩⟩] []).removed =
      ["a/bb.mp3"] := by
  refine ⟨?_, ?_, sortFiles_head_min files first others hsort,
    by decide, by decide, by decide⟩
  · rw [deleteOthersAux_removed, hsort, attemptedFrom_zero_cons]
    congr 1
    simp
  · have h := sortFiles_nodup files hnd
    rw [hsort] at h
    exact (List.nodup_cons.mp h).1

/-- Witness for C4 on the duplicate set `["a/bb.mp3", "a/b.mp3"]`. -/
theorem scorched_survivor_witness :
    ((deleteOthersAux (fun _ => true) 0 0
        (sortFiles ["a/bb.mp3", "a/b.mp3"]) [] 0 []).2.2 =
      [] ++ ["a/bb.mp3"]) ∧
    "a/b.mp3" ∉ ["a/bb.mp3"] ∧
    pathLe "a/b.mp3" "a/bb.mp3" := by
  have h := scorched_survivor ["a/bb.mp3", "a/b.mp3"] [] 0 [] "a/b.mp3"
    ["a/bb.mp3"] (by decide) (by decide)
  exact ⟨h.1, h.2.1, h.2.2.1 "a/bb.mp3" (by decide)⟩

theorem scan_fold_errs_indep (sign : String → Option String)
    (l : List FsFile) (c : Cache) (m : SigMap) (e e' : List String) :
    (l.foldl (scanStep sign) ⟨c, m, e⟩).cache =
      (l.foldl (scanStep sign) ⟨c, m, e'⟩).cache ∧
    (l.foldl (scanStep sign) ⟨c, m, e⟩).filesBySig =
      (l.foldl (scanStep sign) ⟨c, m, e'⟩).filesBySig := by
  induction l generalizing c m e e' with
  | nil => exact ⟨rfl, rfl⟩
  | cons f rest ih =>
    rw [List.foldl_cons, List.foldl_cons, scanStep_eq, scanStep_eq]
    by_cases hm : isMediaPath f.path
    · rw [if_pos hm, if_pos hm]
      dsimp only
      match scanSig sign c f with
      | none => exact ih _ _ _ _
      | some s => exact ih _ _ _ _
    · rw [if_neg hm, if_neg hm]
      exact ih _ _ _ _

/-- C7: when signing a file fails (no trustworthy cache entry and the
signer errors), the scan leaves the store unchanged at that path, the
path is excluded from every duplicate group, the error is logged with
the path, and the rest of the scan proceeds exactly as if the file had
not been listed (same cache, same groups). -/
theorem sign_failure_isolated (sign : String → Option String)
    (cache0 : Cache) (pre post : List FsFile) (f : FsFile)
    (hnd : ((pre ++ f :: post).map FsFile.path).Nodup)
    (hm : isMediaPath f.path = true)
    (hfail : scanSig sign cache0 f = none) :
    (alGet (scanFiles sign cache0 (pre ++ f :: post)).cache f.path =
      alGet cache0 f.path) ∧
    (∀ s, f.path ∉
      sigMapGet (scanFiles sign cache0 (pre ++ f :: post)).filesBySig s) ∧
    (f.path ∈ (scanFiles sign cache0 (pre ++ f :: post)).errs) ∧
    ((scanFiles sign cache0 (pre ++ f :: post)).cache =
      (scanFiles sign cache0 (pre ++ post)).cache) ∧
    ((scanFiles sign cache0 (pre ++ f :: post)).filesBySig =
      (scanFiles sign cache0 (pre ++ post)).filesBySig) := by
  have hfmem : f ∈ pre ++ f :: post := by simp
  have hagree : ∀ g ∈ pre ++ f :: post,
      alGet (⟨cache0, [], []⟩ : ScanState).cache g.path = alGet cache0 g.path :=
    fun g _ => rfl
  have hpaths : (pre ++ f :: post).map FsFile.path =
      pre.map FsFile.path ++ f.path :: post.map FsFile.path := by
    simp
  have hnd' : (f.path :: (pre.map FsFile.path ++ post.map FsFile.path)).Nodup := by
    rw [← List.nodup_middle, ← hpaths]
    exact hnd
  have hfp_notin : f.path ∉ pre.map FsFile.path ++ post.map FsFile.path :=
    (List.nodup_cons.mp hnd').1
  refine ⟨?_, ?_, ?_, ?_⟩
  · rw [show scanFiles sign cache0 (pre ++ f :: post) =
        (pre ++ f :: post).foldl (scanStep sign) ⟨cache0, [], []⟩ from rfl]
    rw [scan_fold_cache_found sign (pre ++ f :: post) _ cache0 f hnd hagree hfmem]
    unfold scanEntryAt
    rw [if_pos hm, scanCacheUpd_fail sign cache0 f hfail]
  · intro s hmem
    rw [show scanFiles sign cache0 (pre ++ f :: post) =
        (pre ++ f :: post).foldl (scanStep sign) ⟨cache0, [], []⟩ from rfl] at hmem
    rw [scan_fold_bySig sign (pre ++ f :: post) _ cache0 hnd hagree s] at hmem
    rw [show sigMapGet (⟨cache0, [], []⟩ : ScanState).filesBySig s = [] from rfl] at hmem
    rw [List.nil_append] at hmem
    obtain ⟨g, hgmem, hgp⟩ := List.mem_map.mp hmem
    obtain ⟨hgfiles, hgP⟩ := List.mem_filter.mp hgmem
    have hgf : g = f := path_inj_of_nodup _ hnd g f hgfiles hfmem hgp
    subst hgf
    simp only [Bool.and_eq_true, decide_eq_true_eq] at hgP
    rw [hfail] at hgP
    exact absurd hgP.2 (by simp)
  · rw [show scanFiles sign cache0 (pre ++ f :: post) =
        (pre ++ f :: post).foldl (scanStep sign) ⟨cache0, [], []⟩ from rfl]
    rw [scan_fold_errs sign (pre ++ f :: post) _ cache0 hnd hagree]
    refine List.mem_append.mpr (Or.inr ?_)
    refine List.mem_map.mpr ⟨f, List.mem_filter.mpr ⟨hfmem, ?_⟩, rfl⟩
    simp [hm, hfail]
  · have hstp : ∀ g ∈ pre, g.path ≠ f.path := by
      intro g hg hgp
      apply hfp_notin
      exact List.mem_append.mpr (Or.inl (hgp ▸ List.mem_map.mpr ⟨g, hg, rfl⟩))
    have hcache_pre : alGet ((pre.foldl (scanStep sign)
        (⟨cache0, [], []⟩ : ScanState)).cache) f.path = alGet cache0 f.path := by
      rw [scan_fold_cache_notin sign pre _ f.path
        (fun g hg hgp => hstp g hg hgp)]
    have hsig_pre : scanSig sign
        ((pre.foldl (scanStep sign) (⟨cache0, [], []⟩ : ScanState)).cache) f = none :=
      (scanSig_congr sign _ cache0 f hcache_pre).trans hfail
    have hsplit : scanFiles sign cache0 (pre ++ f :: post) =
        post.foldl (scanStep sign)
          (scanStep sign (pre.foldl (scanStep sign) ⟨cache0, [], []⟩) f) := by
      unfold scanFiles
      rw [List.foldl_append, List.foldl_cons]
    have hsplit2 : scanFiles sign cache0 (pre ++ post) =
        post.foldl (scanStep sign) (pre.foldl (scanStep sign) ⟨cache0, [], []⟩) := by
      unfold scanFiles
      rw [List.foldl_append]
    rw [hsplit, hsplit2]
    rw [scanStep_err sign _ f hm hsig_pre]
    have hindep := scan_fold_errs_indep sign post
      (pre.foldl (scanStep sign) ⟨cache0, [], []⟩).cache
      (pre.foldl (scanStep sign) ⟨cache0, [], []⟩).filesBySig
      ((pre.foldl (scanStep sign) ⟨cache0, [], []⟩).errs ++ [f.path])
      (pre.foldl (scanStep sign) ⟨cache0, [], []⟩).errs
    exact hindep

/-- Witness for C7: a scan in which `"x/a.mp3"` cannot be signed while
`"x/b.mp3"` signs fine. -/
theorem sign_failure_isolated_witness :
    (alGet (scanFiles (fun p => if p = "x/a.mp3" then none else some "S")
        [] ([] ++ ⟨"x/a.mp3", ⟨1, 2⟩⟩ :: [⟨"x/b.mp3", ⟨1, 2⟩⟩])).cache
        (FsFile.path ⟨"x/a.mp3", ⟨1, 2⟩⟩) = alGet ([] : Cache)
        (FsFile.path ⟨"x/a.mp3", ⟨1, 2⟩⟩)) ∧
    (FsFile.path ⟨"x/a.mp3", ⟨1, 2⟩⟩ ∉
      sigMapGet (scanFiles (fun p => if p = "x/a.mp3" then none else some "S")
        [] ([] ++ ⟨"x/a.mp3", ⟨1, 2⟩⟩ :: [⟨"x/b.mp3", ⟨1, 2⟩⟩])).filesBySig "S") ∧
    (FsFile.path ⟨"x/a.mp3", ⟨1, 2⟩⟩ ∈
      (scanFiles (fun p => if p = "x/a.mp3" then none else some "S")
        [] ([] ++ ⟨"x/a.mp3", ⟨1, 2⟩⟩ :: [⟨"x/b.mp3", ⟨1, 2⟩⟩])).errs) ∧
    ((scanFiles (fun p => if p = "x/a.mp3" then none else some "S")
        [] ([] ++ ⟨"x/a.mp3", ⟨1, 2⟩⟩ :: [⟨"x/b.mp3", ⟨1, 2⟩⟩])).cache =
      (scanFiles (fun p => if p = "x/a.mp3" then none else some "S")
        [] ([] ++ [⟨"x/b.mp3", ⟨1, 2⟩⟩])).cache) ∧
    ((scanFiles (fun p => if p = "x/a.mp3" then none else some "S")
        [] ([] ++ ⟨"x/a.mp3", ⟨1, 2⟩⟩ :: [⟨"x/b.mp3", ⟨1, 2⟩⟩])).filesBySig =
      (scanFiles (fun p => if p = "x/a.mp3" then none else some "S")
        [] ([] ++ [⟨"x/b.mp3", ⟨1, 2⟩⟩])).filesBySig) := by
  have h := sign_failure_isolated
    (fun p => if p = "x/a.mp3" then none else some "S") [] []
    [⟨"x/b.mp3", ⟨1, 2⟩⟩] ⟨"x/a.mp3", ⟨1, 2⟩⟩ (by decide) (by decide) (by decide)
  exact ⟨h.1, h.2.1 "S", h.2.2.1, h.2.2.2.1, h.2.2.2.2⟩

theorem scan_fold_bySig_media (sign : String → Option String)
    (files : List FsFile) (st : ScanState) (s q : String)
    (hq : q ∈ sigMapGet (files.foldl (scanStep sign) st).filesBySig s) :
    q ∈ sigMapGet st.filesBySig s ∨ isMediaPath q = true := by
  induction files generalizing st with
  | nil => exact Or.inl hq
  | cons f rest ih =>
    rw [List.foldl_cons] at hq
    rcases ih _ hq with h | h
    · rw [scanStep_eq] at h
      by_cases hm : isMediaPath f.path
      · rw [if_pos hm] at h
        match hsc : scanSig sign st.cache f with
        | none => rw [hsc] at h; exact Or.inl h
        | some s₀ =>
          rw [hsc] at h
          dsimp only at h
          rw [sigMapGet_sigMapAppend] at h
          by_cases hss : s = s₀
          · rw [if_pos hss] at h
            rcases List.mem_append.mp h with h1 | h1
            · exact Or.inl h1
            · right
              have hqf : q = f.path := by simpa using h1
              rw [hqf]
              exact hm
          · rw [if_neg hss] at h
            exact Or.inl h
      · rw [if_neg hm] at h
        exact Or.inl h
    · exact Or.inr h

theorem scan_fold_cache_nonmedia (sign : String → Option String)
    (files : List FsFile) (st : ScanState) (q : String)
    (hq : isMediaPath q = false) :
    alGet (files.foldl (scanStep sign) st).cache q = alGet st.cache q := by
  induction files generalizing st with
  | nil => rfl
  | cons f rest ih =>
    rw [List.foldl_cons, ih]
    rw [scanStep_eq]
    by_cases hm : isMediaPath f.path
    · rw [if_pos hm]
      match scanSig sign st.cache f with
      | none => rfl
      | some s₀ =>
        dsimp only
        refine scanCacheUpd_get_ne sign st.cache f q ?_
        intro hqf
        rw [hqf, hm] at hq
        exact absurd hq (by simp)
    · rw [if_neg hm]

theorem UpdateEntry_sign_congr (sign sign' : String → Option String)
    (path : String) (info : FileInfo) (c : Cache)
    (h : sign' path = sign path) :
    UpdateEntry sign' path info c = UpdateEntry sign path info c := by
  unfold UpdateEntry
  rw [h]

theorem scan_fold_sign_congr (sign sign' : String → Option String)
    (files : List FsFile) (st : ScanState)
    (h : ∀ f ∈ files, isMediaPath f.path = true → sign' f.path = sign f.path) :
    files.foldl (scanStep sign') st = files.foldl (scanStep sign) st := by
  induction files generalizing st with
  | nil => rfl
  | cons f rest ih =>
    rw [List.foldl_cons, List.foldl_cons]
    have hstep : scanStep sign' st f = scanStep sign st f := by
      unfold scanStep
      by_cases hm : isMediaPath f.path
      · rw [if_pos hm, if_pos hm,
          UpdateEntry_sign_congr sign sign' f.path f.info st.cache (h f (by simp) hm)]
      · rw [if_neg hm, if_neg hm]
    rw [hstep]
    exact ih _ (fun g hg => h g (by simp [hg]))

theorem runDedupWith_sign_congr (choose : String → List String → Option Nat)
    (sign sign' : String → Option String) (removeOk : String → Bool)
    (notExist : String → Bool) (files : List FsFile) (cache0 : Cache)
    (h : ∀ f ∈ files, isMediaPath f.path = true → sign' f.path = sign f.path) :
    runDedupWith choose sign' removeOk notExist files cache0 =
      runDedupWith choose sign removeOk notExist files cache0 := by
  unfold runDedupWith scanFiles
  rw [scan_fold_sign_congr sign sign' files _ h]

theorem mem_runRemoved (choose : String → List String → Option Nat)
    (removeOk : String → Bool) (m : SigMap) (q : String)
    (h : q ∈ runRemoved choose removeOk m) : ∃ s, q ∈ sigMapGet m s := by
  unfold runRemoved at h
  obtain ⟨s, _, hq⟩ := (mem_concatMap _ _ q).mp h
  unfold setRemoved at hq
  refine ⟨s, ?_⟩
  match hch : choose s (sortFiles (sigMapGet m s)) with
  | none =>
    rw [hch] at hq
    exact absurd hq (by simp)
  | some k =>
    rw [hch] at hq
    dsimp only at hq
    have h1 := List.mem_filter.mp hq
    have h2 := mem_attemptedFrom k 0 _ q h1.1
    exact (sortFiles_perm _).subset h2

/-- C10: a run never touches a path whose lowercased extension is not
one of `.mp3`, `.flac`, `.m4a`, `.wav`: the path lands in no duplicate
group, is never deleted, its cache key is neither added nor overwritten
by the scan (after pruning it holds exactly its pre-run entry when the
path exists), and the whole run result is independent of what the
signer would return on that path (it is never signed). -/
theorem non_media_untouched (choose : String → List String → Option Nat)
    (sign : String → Option String) (removeOk : String → Bool)
    (notExist : String → Bool) (files : List FsFile) (cache0 : Cache)
    (p : String) (hp : isMediaPath p = false) :
    (∀ s, p ∉ sigMapGet (scanFiles sign cache0 files).filesBySig s) ∧
    (p ∉ (runDedupWith choose sign removeOk notExist files cache0).removed) ∧
    (alGet (scanFiles sign cache0 files).cache p = alGet cache0 p) ∧
    (alGet (runDedupWith choose sign removeOk notExist files cache0).cache p =
      if notExist p then none else alGet cache0 p) ∧
    (∀ sign', (∀ q, q ≠ p → sign' q = sign q) →
      runDedupWith choose sign' removeOk notExist files cache0 =
        runDedupWith choose sign removeOk notExist files cache0) := by
  have hgroups : ∀ s, p ∉ sigMapGet (scanFiles sign cache0 files).filesBySig s := by
    intro s hmem
    rcases scan_fold_bySig_media sign files ⟨cache0, [], []⟩ s p hmem with h | h
    · exact absurd h (by simp [sigMapGet, alGet])
    · rw [hp] at h
      exact absurd h (by simp)
  have hremoved :
      p ∉ (runDedupWith choose sign removeOk notExist files cache0).removed := by
    intro hmem
    have h1 := runSets_removed choose removeOk
      (scanFiles sign cache0 files).filesBySig
      (dupSigs (scanFiles sign cache0 files).filesBySig)
      (scanFiles sign cache0 files).cache 0 []
    have hmem' : p ∈ runRemoved choose removeOk
        (scanFiles sign cache0 files).filesBySig := by
      have : (runDedupWith choose sign removeOk notExist files cache0).removed =
          [] ++ runRemoved choose removeOk (scanFiles sign cache0 files).filesBySig :=
        h1
      rw [this, List.nil_append] at hmem
      exact hmem
    obtain ⟨s, hs⟩ := mem_runRemoved choose removeOk _ p hmem'
    exact hgroups s hs
  have hscancache :
      alGet (scanFiles sign cache0 files).cache p = alGet cache0 p :=
    scan_fold_cache_nonmedia sign files ⟨cache0, [], []⟩ p hp
  refine ⟨hgroups, hremoved, hscancache, ?_, ?_⟩
  · have hc : (runDedupWith choose sign removeOk notExist files cache0).cache =
        pruneCache notExist
          (runSets choose removeOk (scanFiles sign cache0 files).filesBySig
            (dupSigs (scanFiles sign cache0 files).filesBySig)
            (scanFiles sign cache0 files).cache 0 []).1 := rfl
    rw [hc, alGet_pruneCache, runSets_cache]
    have hnot : p ∉ concatMap
        (setRemoved choose removeOk (scanFiles sign cache0 files).filesBySig)
        (dupSigs (scanFiles sign cache0 files).filesBySig) := by
      intro hmem
      obtain ⟨s, hs⟩ := mem_runRemoved choose removeOk
        (scanFiles sign cache0 files).filesBySig p hmem
      exact hgroups s hs
    rw [if_neg hnot, hscancache]
  · intro sign' hs'
    refine runDedupWith_sign_congr choose sign sign' removeOk notExist files cache0 ?_
    intro f _ hmf
    refine hs' f.path ?_
    intro hfp
    rw [hfp, hp] at hmf
    exact absurd hmf (by simp)

/-- Witness for C10: a run over `"x/readme.txt"` (non-media) and
`"x/a.mp3"`, including independence from the signer's value at the
non-media path. -/
theorem non_media_untouched_witness :
    ("x/readme.txt" ∉ sigMapGet (scanFiles (fun _ => some "S") []
        [⟨"x/readme.txt", ⟨1, 2⟩⟩, ⟨"x/a.mp3", ⟨1, 2⟩⟩]).filesBySig "S") ∧
    ("x/readme.txt" ∉ (runDedupWith (fun _ _ => some 0) (fun _ => some "S")
        (fun _ => true) (fun _ => false)
        [⟨"x/readme.txt", ⟨1, 2⟩⟩, ⟨"x/a.mp3", ⟨1, 2⟩⟩] []).removed) ∧
    (alGet (scanFiles (fun _ => some "S") []
        [⟨"x/readme.txt", ⟨1, 2⟩⟩, ⟨"x/a.mp3", ⟨1, 2⟩⟩]).cache "x/readme.txt" =
      alGet ([] : Cache) "x/readme.txt") ∧
    (alGet (runDedupWith (fun _ _ => some 0) (fun _ => some "S")
        (fun _ => true) (fun _ => false)
        [⟨"x/readme.txt", ⟨1, 2⟩⟩, ⟨"x/a.mp3", ⟨1, 2⟩⟩] []).cache "x/readme.txt" =
      if (fun _ : String => false) "x/readme.txt" then none
      else alGet ([] : Cache) "x/readme.txt") ∧
    (runDedupWith (fun _ _ => some 0)
        (fun q => if q = "x/readme.txt" then none else some "S") (fun _ => true)
        (fun _ => false) [⟨"x/readme.txt", ⟨1, 2⟩⟩, ⟨"x/a.mp3", ⟨1, 2⟩⟩] [] =
      runDedupWith (fun _ _ => some 0) (fun _ => some "S") (fun _ => true)
        (fun _ => false) [⟨"x/readme.txt", ⟨1, 2⟩⟩, ⟨"x/a.mp3", ⟨1, 2⟩⟩] []) := by
  have h := non_media_untouched (fun _ _ => some 0) (fun _ => some "S")
    (fun _ => true) (fun _ => false)
    [⟨"x/readme.txt", ⟨1, 2⟩⟩, ⟨"x/a.mp3", ⟨1, 2⟩⟩] [] "x/readme.txt" (by decide)
  exact ⟨h.1 "S", h.2.1, h.2.2.1, h.2.2.2.1,
    h.2.2.2.2 (fun q => if q = "x/readme.txt" then none else some "S")
      (fun q hq => by simp [hq])⟩

/-! ### Lemmas towards idempotence of the automatic mode -/

theorem setRemoved_auto_eq_tail (m : SigMap) (s : String) :
    setRemoved (fun _ _ => some 0) (fun _ => true) m s =
      (sortFiles (sigMapGet m s)).tail := by
  unfold setRemoved
  dsimp only
  match h : sortFiles (sigMapGet m s) with
  | [] => simp [attemptedFrom]
  | f :: rest =>
    rw [attemptedFrom_zero_cons]
    simp

theorem scan_fold_keys_nodup (sign : String → Option String)
    (files : List FsFile) (st : ScanState)
    (h : (st.filesBySig.map Prod.fst).Nodup) :
    (((files.foldl (scanStep sign) st).filesBySig).map Prod.fst).Nodup := by
  induction files generalizing st with
  | nil => exact h
  | cons f rest ih =>
    rw [List.foldl_cons]
    refine ih _ ?_
    rw [scanStep_eq]
    by_cases hm : isMediaPath f.path
    · rw [if_pos hm]
      match scanSig sign st.cache f with
      | none => exact h
      | some s₀ =>
        dsimp only
        exact keys_nodup_sigMapAppend st.filesBySig s₀ f.path h
    · rw [if_neg hm]
      exact h

theorem scanSig_after_scan (sign : String → Option String) (cache0 : Cache)
    (f : FsFile) (c' : Cache) (hm : isMediaPath f.path = true)
    (h : alGet c' f.path = scanEntryAt sign cache0 f) :
    scanSig sign c' f = scanSig sign cache0 f := by
  unfold scanEntryAt at h
  rw [if_pos hm] at h
  unfold scanCacheUpd at h
  match halGet : alGet cache0 f.path with
  | some e₀ =>
    rw [halGet] at h
    dsimp only at h
    by_cases hh : e₀.modTime = f.info.modTime ∧ e₀.size = f.info.size
    · rw [if_pos hh] at h
      exact scanSig_congr sign c' cache0 f h
    · rw [if_neg hh] at h
      match hs : sign f.path with
      | some s =>
        rw [hs] at h
        dsimp only at h
        rw [alGet_alSet_self] at h
        unfold scanSig
        rw [h, halGet]
        dsimp only
        rw [if_pos ⟨rfl, rfl⟩, if_neg hh, hs]
      | none =>
        rw [hs] at h
        exact scanSig_congr sign c' cache0 f h
  | none =>
    rw [halGet] at h
    dsimp only at h
    match hs : sign f.path with
    | some s =>
      rw [hs] at h
      dsimp only at h
      rw [alGet_alSet_self] at h
      unfold scanSig
      rw [h, halGet]
      dsimp only
      rw [if_pos ⟨rfl, rfl⟩, hs]
    | none =>
      rw [hs] at h
      exact scanSig_congr sign c' cache0 f h

/-- C6: automatic mode is idempotent.  After one scorched-earth run in
which every deletion succeeds, a second automatic run on the remaining
files (the walk minus the removed paths, all still existing at prune
time) with the saved cache finds zero duplicate sets and deletes zero
files. -/
theorem auto_idempotent (sign : String → Option String)
    (notExist notExist2 : String → Bool) (files : List FsFile)
    (cache0 : Cache) (r1 : RunResult) (files2 : List FsFile)
    (hnd : (files.map FsFile.path).Nodup)
    (hrm : r1 = runDedupAuto sign (fun _ => true) notExist files cache0)
    (hfl : files2 = files.filter (fun f => decide (f.path ∉ r1.removed)))
    (hexist : ∀ f ∈ files, f.path ∉ r1.removed → notExist f.path = false) :
    (runDedupAuto sign (fun _ => true) notExist2 files2 r1.cache).duplicatesFound =
      0 ∧
    (runDedupAuto sign (fun _ => true) notExist2 files2 r1.cache).removed =
      [] := by
  have hR : r1.removed = concatMap
      (setRemoved (fun _ _ => some 0) (fun _ => true)
        (scanFiles sign cache0 files).filesBySig)
      (dupSigs (scanFiles sign cache0 files).filesBySig) := by
    rw [hrm]
    show (runSets (fun _ _ => some 0) (fun _ => true)
        (scanFiles sign cache0 files).filesBySig
        (dupSigs (scanFiles sign cache0 files).filesBySig)
        (scanFiles sign cache0 files).cache 0 []).2.2 = _
    rw [runSets_removed, List.nil_append]
  have hkeys₁ : (((scanFiles sign cache0 files).filesBySig).map Prod.fst).Nodup :=
    scan_fold_keys_nodup sign files ⟨cache0, [], []⟩ (by simp)
  have hgrp₁ : ∀ s, sigMapGet (scanFiles sign cache0 files).filesBySig s =
      (files.filter (fun f => isMediaPath f.path &&
        decide (scanSig sign cache0 f = some s))).map FsFile.path := by
    intro s
    have h1 := scan_fold_bySig sign files ⟨cache0, [], []⟩ cache0 hnd
      (fun f _ => rfl) s
    rw [show sigMapGet (⟨cache0, [], []⟩ : ScanState).filesBySig s = [] from rfl,
      List.nil_append] at h1
    exact h1
  have hmem2 : ∀ f, f ∈ files2 ↔ f ∈ files ∧ f.path ∉ r1.removed := by
    intro f
    rw [hfl]
    simp [List.mem_filter]
  have hnd2 : (files2.map FsFile.path).Nodup := by
    rw [hfl]
    exact hnd.sublist ((List.filter_sublist files).map FsFile.path)
  have hcachef : ∀ f ∈ files2, alGet r1.cache f.path = scanEntryAt sign cache0 f := by
    intro f hf
    obtain ⟨hffiles, hfnotR⟩ := (hmem2 f).mp hf
    have hnef : notExist f.path = false := hexist f hffiles hfnotR
    have hfnotC : f.path ∉ concatMap
        (setRemoved (fun _ _ => some 0) (fun _ => true)
          (scanFiles sign cache0 files).filesBySig)
        (dupSigs (scanFiles sign cache0 files).filesBySig) := by
      rw [← hR]
      exact hfnotR
    rw [hrm]
    show alGet (pruneCache notExist (runSets (fun _ _ => some 0) (fun _ => true)
        (scanFiles sign cache0 files).filesBySig
        (dupSigs (scanFiles sign cache0 files).filesBySig)
        (scanFiles sign cache0 files).cache 0 []).1) f.path = _
    rw [alGet_pruneCache, hnef, if_neg (by simp), runSets_cache, if_neg hfnotC]
    exact scan_fold_cache_found sign files ⟨cache0, [], []⟩ cache0 f hnd
      (fun g _ => rfl) hffiles
  have hsig2 : ∀ f ∈ files2, isMediaPath f.path = true →
      scanSig sign r1.cache f = scanSig sign cache0 f :=
    fun f hf hm => scanSig_after_scan sign cache0 f r1.cache hm (hcachef f hf)
  have hgrp₂ : ∀ s, sigMapGet (scanFiles sign r1.cache files2).filesBySig s =
      (files2.filter (fun f => isMediaPath f.path &&
        decide (scanSig sign cache0 f = some s))).map FsFile.path := by
    intro s
    have h1 := scan_fold_bySig sign files2 ⟨r1.cache, [], []⟩ r1.cache hnd2
      (fun f _ => rfl) s
    rw [show sigMapGet (⟨r1.cache, [], []⟩ : ScanState).filesBySig s = [] from rfl,
      List.nil_append] at h1
    rw [show scanFiles sign r1.cache files2 =
      files2.foldl (scanStep sign) ⟨r1.cache, [], []⟩ from rfl]
    rw [h1]
    congr 1
    refine List.filter_congr ?_
    intro f hf
    by_cases hm : isMediaPath f.path
    · simp only [hm, Bool.true_and]
      rw [hsig2 f hf hm]
    · simp [hm]
  have hlen2 : ∀ s,
      (sigMapGet (scanFiles sign r1.cache files2).filesBySig s).length ≤ 1 := by
    intro s
    rw [hgrp₂ s]
    have hnodup_g2 : ((files2.filter (fun f => isMediaPath f.path &&
        decide (scanSig sign cache0 f = some s))).map FsFile.path).Nodup :=
      hnd2.sublist ((List.filter_sublist files2).map FsFile.path)
    have hsub : ∀ q ∈ (files2.filter (fun f => isMediaPath f.path &&
        decide (scanSig sign cache0 f = some s))).map FsFile.path,
        q ∈ sigMapGet (scanFiles sign cache0 files).filesBySig s ∧
          q ∉ r1.removed := by
      intro q hq
      obtain ⟨f, hfmem, hfp⟩ := List.mem_map.mp hq
      obtain ⟨hfin2, hfP⟩ := List.mem_filter.mp hfmem
      constructor
      · rw [hgrp₁ s]
        exact List.mem_map.mpr
          ⟨f, List.mem_filter.mpr ⟨((hmem2 f).mp hfin2).1, hfP⟩, hfp⟩
      · rw [← hfp]
        exact ((hmem2 f).mp hfin2).2
    by_cases hbig : 2 ≤ (sigMapGet (scanFiles sign cache0 files).filesBySig s).length
    · have hsdup : s ∈ dupSigs (scanFiles sign cache0 files).filesBySig :=
        (mem_dupSigs _ hkeys₁ s).mpr hbig
      have hlen_sort : (sortFiles
          (sigMapGet (scanFiles sign cache0 files).filesBySig s)).length =
          (sigMapGet (scanFiles sign cache0 files).filesBySig s).length :=
        (sortFiles_perm _).length_eq
      match hsort : sortFiles (sigMapGet (scanFiles sign cache0 files).filesBySig s) with
      | [] =>
        rw [hsort] at hlen_sort
        simp at hlen_sort
        omega
      | hd :: tl =>
        have htail : ∀ q ∈ tl, q ∈ r1.removed := by
          intro q hq
          rw [hR]
          refine (mem_concatMap _ _ q).mpr ⟨s, hsdup, ?_⟩
          rw [setRemoved_auto_eq_tail, hsort]
          exact hq
        refine length_le_one_of_all_eq _ hd hnodup_g2 ?_
        intro q hq
        obtain ⟨hqg1, hqnotR⟩ := hsub q hq
        have hqsort : q ∈ hd :: tl := by
          rw [← hsort]
          exact (sortFiles_perm _).symm.subset hqg1
        rcases List.mem_cons.mp hqsort with h | h
        · exact h
        · exact absurd (htail q h) hqnotR
    · have hsp := ((hnodup_g2.subperm (fun q hq => (hsub q hq).1)).length_le)
      omega
  have hm2keys :
      (((scanFiles sign r1.cache files2).filesBySig).map Prod.fst).Nodup :=
    scan_fold_keys_nodup sign files2 ⟨r1.cache, [], []⟩ (by simp)
  have hdup2 : dupSigs (scanFiles sign r1.cache files2).filesBySig = [] :=
    dupSigs_eq_nil _ hm2keys hlen2
  refine ⟨?_, ?_⟩
  · show (dupSigs (scanFiles sign r1.cache files2).filesBySig).length = 0
    rw [hdup2]
    rfl
  · show (runSets (fun _ _ => some 0) (fun _ => true)
        (scanFiles sign r1.cache files2).filesBySig
        (dupSigs (scanFiles sign r1.cache files2).filesBySig)
        (scanFiles sign r1.cache files2).cache 0 []).2.2 = []
    rw [hdup2]
    rfl

/-- Witness for C6: two byte-identical files plus one distinct file;
after the first automatic run removes `"a/bb.mp3"`, the second run over
the two remaining files with the saved cache finds no duplicates and
removes nothing. -/
theorem auto_idempotent_witness :
    (runDedupAuto (fun p => if p = "c/song2.mp3" then some "Y" else some "X")
        (fun _ => true) (fun _ => false)
        [⟨"a/b.mp3", ⟨10, 1000⟩⟩, ⟨"c/song2.mp3", ⟨5, 7⟩⟩]
        (runDedupAuto (fun p => if p = "c/song2.mp3" then some "Y" else some "X")
          (fun _ => true) (fun _ => false)
          [⟨"a/bb.mp3", ⟨10, 1000⟩⟩, ⟨"a/b.mp3", ⟨10, 1000⟩⟩,
            ⟨"c/song2.mp3", ⟨5, 7⟩⟩] []).cache).duplicatesFound = 0 ∧
    (runDedupAuto (fun p => if p = "c/song2.mp3" then some "Y" else some "X")
        (fun _ => true) (fun _ => false)
        [⟨"a/b.mp3", ⟨10, 1000⟩⟩, ⟨"c/song2.mp3", ⟨5, 7⟩⟩]
        (runDedupAuto (fun p => if p = "c/song2.mp3" then some "Y" else some "X")
          (fun _ => true) (fun _ => false)
          [⟨"a/bb.mp3", ⟨10, 1000⟩⟩, ⟨"a/b.mp3", ⟨10, 1000⟩⟩,
            ⟨"c/song2.mp3", ⟨5, 7⟩⟩] []).cache).removed = [] :=
  auto_idempotent (fun p => if p = "c/song2.mp3" then some "Y" else some "X")
    (fun _ => false) (fun _ => false)
    [⟨"a/bb.mp3", ⟨10, 1000⟩⟩, ⟨"a/b.mp3", ⟨10, 1000⟩⟩, ⟨"c/song2.mp3", ⟨5, 7⟩⟩]
    []
    (runDedupAuto (fun p => if p = "c/song2.mp3" then some "Y" else some "X")
      (fun _ => true) (fun _ => false)
      [⟨"a/bb.mp3", ⟨10, 1000⟩⟩, ⟨"a/b.mp3", ⟨10, 1000⟩⟩,
        ⟨"c/song2.mp3", ⟨5, 7⟩⟩] [])
    [⟨"a/b.mp3", ⟨10, 1000⟩⟩, ⟨"c/song2.mp3", ⟨5, 7⟩⟩]
    (by decide) rfl (by decide) (by decide)

end Muxic
